import Mathlib

/-!
Verification of the Ad-McQuery batched analysis pipeline.

This file is a shallow embedding, in Lean 4, of the parts of the
repository that the specification's claims are about:

* `src/backend/batch_analysis.py` — batch partitioning, per-batch model
  dispatch, response reconciliation (`batch_analyze_videos`,
  `batch_analyze_images`, `process_batch`, `process_image_batch`,
  `parse_batch_response`);
* `src/backend/main.py` — the `process_zip_file` pipeline with its
  per-dataset cache short-circuit;
* `src/backend/search_engine.py` — the deterministic embedding-text
  projection (`create_embedding_text`) and filtered search
  (`search_with_filters`).

Modelling conventions:

* Python `dict`s are embedded as insertion-ordered association lists
  (`List (String × β)`); key lookup is first-match (`getVal?`), matching
  the unique-key invariant of a real `dict`.  Where a proof needs key
  uniqueness it takes an explicit `Nodup` hypothesis.
* JSON scalar values are embedded as `Val` (rationals for Python
  numbers, strings, booleans, arrays); machine floats are modelled as
  exact rationals, which is faithful for the threshold comparisons the
  claims are about.
* External effects (the Gemini `generate_content` call, `json.loads`)
  are parameters: the parse outcome of one response text is an
  `Option ParsedJson` (`none` a raised `json.JSONDecodeError`, `some`
  the parsed JSON value — an object, list, string, or non-container
  scalar), and a model call for one batch is a function from the
  batch's filename list to `Except String (Option JsonBlob)` — an
  exception message (any raise inside the worker's `try`, including
  the uncaught `TypeError` that `parse_batch_response` raises on a
  non-object parse), or a non-raising parse outcome (`none`, or the
  string-keyed object).
* Python string operations `k.lower().endswith(s)`, `k.startswith(s)`,
  `k[4:]` are embedded on the underlying character lists.
-/

namespace AdMcQuery

/-- A JSON-like scalar/structured value as it appears in the per-file
record dictionaries.  Python numbers are modelled as exact rationals. -/
inductive Val : Type where
  | num (q : ℚ)
  | str (s : String)
  | vbool (b : Bool)
  | arr (xs : List String)
deriving DecidableEq

/-- A Python `dict` with string keys, as an insertion-ordered
association list.  Used both for per-file records (`β = Val`) and for
filename-keyed result mappings (`β = Record`). -/
def getVal? {β : Type} (m : List (String × β)) (k : String) : Option β :=
  (m.find? (fun p => p.1 == k)).map Prod.snd

/-- `k in d` for a Python dict `d`. -/
def hasKey {β : Type} (m : List (String × β)) (k : String) : Bool :=
  m.any (fun p => p.1 == k)

/-- A per-file record: preprocessing features, analysis fields, error
markers. -/
abbrev Record := List (String × Val)

/-- Python dict merge `{**a, **b}`: all keys of `a` and `b`, values of
`b` winning on conflict. -/
def mergeRecords (a b : Record) : Record :=
  a.filter (fun p => !(hasKey b p.1)) ++ b

/-- Python dict assignment `m[k] = v`: replace in place if the key is
present, append otherwise. -/
def insertRecord {β : Type} (m : List (String × β)) (k : String) (v : β) :
    List (String × β) :=
  if hasKey m k then m.map (fun p => if p.1 == k then (k, v) else p)
  else m ++ [(k, v)]

/-- Python `name.lower().endswith(suffix)`, on character lists. -/
def lowerEndsWith (k : String) (suffix : List Char) : Bool :=
  suffix.isSuffixOf (k.data.map Char.toLower)

/-- `k.lower().endswith('.mp4')` — the media-kind test for videos
(`batch_analysis.py` line 32, `main.py` line 207). -/
def isVideoKey (k : String) : Bool := lowerEndsWith k ".mp4".data

/-- `k.lower().endswith('.png')` — the media-kind test for images
(`batch_analysis.py` line 232, `main.py` line 193). -/
def isImageKey (k : String) : Bool := lowerEndsWith k ".png".data

/-!  ## Batch partitioning (`batch_analysis.py` lines 39-44, 239-244)

Python splits the filtered filename list with
`for i in range(0, len(filenames), batch_size): filenames[i:i+batch_size]`.
For `batch_size ≥ 1`, `range(0, n, batch_size)` enumerates
`i = j·batch_size` for `j < ⌈n/batch_size⌉`, and the slice
`filenames[i:i+b]` is `(drop i).take b`.  The chunking is applied
directly to the filtered association list; the Python code equivalently
chunks the key list and rebuilds each sub-dict by lookup. -/

/-- `⌈n/b⌉` as computed by the batch count `(n + b - 1) // b`. -/
def numBatches (n b : ℕ) : ℕ := (n + b - 1) / b

/-- Split a list into the slices `l[i*b : (i+1)*b]`, `i < ⌈|l|/b⌉`. -/
def chunkList {α : Type} (b : ℕ) (l : List α) : List (List α) :=
  (List.range (numBatches l.length b)).map (fun i => (l.drop (i * b)).take b)

/-! ## Response reconciliation (`batch_analysis.py` lines 187-212)

`parse_batch_response` strips code fences, runs `json.loads`, and then
loops `for i, filename in enumerate(expected_filenames)`, testing
`str(i) in batch_analysis` and assigning
`result[filename] = batch_analysis[str(i)]`.  Only
`json.JSONDecodeError` is caught (returning `{}`); the loop runs inside
the same `try`, so when `json.loads` succeeds with a *non-object* —
a number, boolean, `null`, list, or string, all valid top-level JSON —
the membership test or the subscript raises an uncaught `TypeError`.
The cleanup-plus-`json.loads` of the response text is modelled as an
already-attempted parse of type `Option ParsedJson`: `none` models a
raised `json.JSONDecodeError`, `some p` a successful parse of the JSON
value `p`; a raised, uncaught exception is `Except.error`. -/

/-- A parsed top-level JSON object: string keys to per-file analysis
objects. -/
abbrev JsonBlob := List (String × Record)

/-- The result of a successful `json.loads` on the response text: a
string-keyed object, a list, a string, or a non-container scalar
(number, boolean, `null`).  A list keeps only its string elements: the
loop only ever evaluates `str(i) in parsed`, a Python `str` never
compares equal to a non-`str` list element, and any hit raises at the
subscript before the element's value is used. -/
inductive ParsedJson : Type where
  | jdict (blob : JsonBlob)
  | jlist (elems : List String)
  | jstr (s : String)
  | jscalar

/-- Python `needle in hay` on strings (substring containment), on
character lists. -/
def hasSubstr (needle : List Char) : List Char → Bool
  | [] => needle.isEmpty
  | c :: t => needle.isPrefixOf (c :: t) || hasSubstr needle t

/-- Python `str(i) in parsed`: key containment for a dict, element
membership for a list, substring containment for a string; for a
non-container scalar the `in` operator itself raises `TypeError`
("argument of type ... is not iterable"). -/
def pyContains (p : ParsedJson) (key : String) : Except String Bool :=
  match p with
  | ParsedJson.jdict blob => Except.ok (hasKey blob key)
  | ParsedJson.jlist elems => Except.ok (elems.contains key)
  | ParsedJson.jstr s => Except.ok (hasSubstr key.data s.data)
  | ParsedJson.jscalar => Except.error "TypeError"

/-- Python `parsed[str(i)]`: dict subscription (in the loop always
guarded by the containment test, so the key is present); subscripting a
list or a string with a `str` key raises `TypeError`. -/
def pyGetItem (p : ParsedJson) (key : String) : Except String Record :=
  match p with
  | ParsedJson.jdict blob =>
      match getVal? blob key with
      | some r => Except.ok r
      | none => Except.error "KeyError"
  | _ => Except.error "TypeError"

/-- The reconciliation loop of `parse_batch_response` (lines 199-205):
for each `(i, filename)` in order, test `str(i) in parsed` and on a hit
append `filename ↦ parsed[str(i)]`; a raise aborts the loop at the
first offending index. -/
def parseLoop (p : ParsedJson) :
    List (ℕ × String) → Except String (List (String × Record))
  | [] => Except.ok []
  | q :: rest =>
      match pyContains p (toString q.1) with
      | Except.error e => Except.error e
      | Except.ok false => parseLoop p rest
      | Except.ok true =>
          match pyGetItem p (toString q.1) with
          | Except.error e => Except.error e
          | Except.ok r =>
              match parseLoop p rest with
              | Except.error e => Except.error e
              | Except.ok m => Except.ok ((q.2, r) :: m)

/-- `parse_batch_response`: a `json.loads` failure (`none`, the caught
`json.JSONDecodeError`) yields the empty mapping; a successful parse
runs the index-reconciliation loop, which for an object parse maps each
present key `str(i)` to `expected_filenames[i]` and never raises, and
for a non-object parse can raise an uncaught `TypeError`. -/
def parse_batch_response (parsed : Option ParsedJson)
    (expected_filenames : List String) :
    Except String (List (String × Record)) :=
  match parsed with
  | none => Except.ok []
  | some p => parseLoop p expected_filenames.enum

/-- The reconciliation restricted to the non-raising parse outcomes
(`none`, or an object parse), as used by the per-batch workers:
`parseLoop_dict` below proves `parse_batch_response` agrees with it
there.  The raising outcomes need no case here because
`parse_batch_response` is called inside the worker's `try` and its
uncaught `TypeError` is absorbed by the worker's catch-all `except`,
which the `Except.error` case of `ModelCall` already models. -/
def reconcile_indices (parsed : Option JsonBlob)
    (expected_filenames : List String) : List (String × Record) :=
  match parsed with
  | none => []
  | some blob =>
      expected_filenames.enum.filterMap (fun p =>
        (getVal? blob (toString p.1)).map (fun r => (p.2, r)))

/-! ## Per-batch processing (`batch_analysis.py` lines 48-127, 248-294)

The outcome of the external `model.generate_content` call for a batch is
a parameter of type `ModelCall`: given the batch's ordered filename
list it either raises (`Except.error e`, the exception message `str(e)`
— this case also covers the uncaught `TypeError` that
`parse_batch_response` raises on a valid-JSON non-object response,
since that call happens inside the worker's same `try` and is absorbed
by its catch-all `except`) or returns a response whose JSON parse is a
non-raising outcome `Option JsonBlob`: `none` (a caught
`JSONDecodeError`) or the parsed string-keyed object.  A batch
is the corresponding slice of the filtered association list, which
matches the Python sub-dict `{fn: files[fn] for fn in filenames[i:i+b]}`
(same keys, same order, same values). -/

/-- The external model call boundary for one batch. -/
abbrev ModelCall := List String → Except String (Option JsonBlob)

/-- Drop the `_temp_file_path` key ("clean preprocessing data",
`batch_analysis.py` lines 98, 105, 122). -/
def stripTemp (r : Record) : Record :=
  r.filter (fun p => !(p.1 == "_temp_file_path"))

/-- `process_batch` (videos): on success merge cleaned preprocessing
data with the per-file analysis, fill `analysis_error` for files the
response omitted; if the model call raises, every file of the batch gets
cleaned preprocessing data plus `analysis_error: str(e)`. -/
def process_batch (call : ModelCall) (batch : List (String × Record)) :
    List (String × Record) :=
  match call (batch.map Prod.fst) with
  | Except.error e =>
      batch.map (fun p =>
        (p.1, mergeRecords (stripTemp p.2) [("analysis_error", Val.str e)]))
  | Except.ok parsed =>
      let ba := reconcile_indices parsed (batch.map Prod.fst)
      batch.map (fun p =>
        (p.1, match getVal? ba p.1 with
          | some a => mergeRecords (stripTemp p.2) a
          | none => mergeRecords (stripTemp p.2)
              [("analysis_error", Val.str "Failed to get Gemini analysis")]))

/-- `process_image_batch`: identical control flow but the preprocessing
record is merged as-is (no `_temp_file_path` stripping). -/
def process_image_batch (call : ModelCall) (batch : List (String × Record)) :
    List (String × Record) :=
  match call (batch.map Prod.fst) with
  | Except.error e =>
      batch.map (fun p =>
        (p.1, mergeRecords p.2 [("analysis_error", Val.str e)]))
  | Except.ok parsed =>
      let ba := reconcile_indices parsed (batch.map Prod.fst)
      batch.map (fun p =>
        (p.1, match getVal? ba p.1 with
          | some a => mergeRecords p.2 a
          | none => mergeRecords p.2
              [("analysis_error", Val.str "Failed to get Gemini analysis")]))

/-! ## Batch orchestration (`batch_analysis.py` lines 16-137, 215-304)

The filtered sub-dict, its chunking, and the fan-out/fan-in merge.  The
thread pool completes batches in arbitrary order and each completion
does `results.update(batch_results)`; since the batches' key sets are
pairwise disjoint (proved below from the partition), the final mapping
is independent of completion order, so the merge is modelled as the
in-order flatten of the per-batch results.  The model call for batch
`j` (0-based; Python numbers batches from 1 in log output only) is
`callModel j`. -/

/-- Filter of `batch_analyze_videos` line 31-32: `.mp4` files without an
`error` key and with a `_temp_file_path` key. -/
def videoFilter (p : String × Record) : Bool :=
  isVideoKey p.1 && !(hasKey p.2 "error") && hasKey p.2 "_temp_file_path"

/-- Filter of `batch_analyze_images` line 231-232: `.png` files without
an `error` key. -/
def imageFilter (p : String × Record) : Bool :=
  isImageKey p.1 && !(hasKey p.2 "error")

/-- The batches built by `batch_analyze_videos` lines 39-44. -/
def videoBatches (preprocessed : List (String × Record)) (batch_size : ℕ) :
    List (List (String × Record)) :=
  chunkList batch_size (preprocessed.filter videoFilter)

/-- The batches built by `batch_analyze_images` lines 239-244. -/
def imageBatches (preprocessed : List (String × Record)) (batch_size : ℕ) :
    List (List (String × Record)) :=
  chunkList batch_size (preprocessed.filter imageFilter)

/-- `batch_analyze_videos`: filter, partition, process every batch,
merge all per-batch results. -/
def batch_analyze_videos (callModel : ℕ → ModelCall)
    (preprocessed : List (String × Record)) (batch_size : ℕ) :
    List (String × Record) :=
  ((videoBatches preprocessed batch_size).enum.map
    (fun p => process_batch (callModel p.1) p.2)).flatten

/-- `batch_analyze_images`: filter, partition, process every batch,
merge all per-batch results. -/
def batch_analyze_images (callModel : ℕ → ModelCall)
    (preprocessed : List (String × Record)) (batch_size : ℕ) :
    List (String × Record) :=
  ((imageBatches preprocessed batch_size).enum.map
    (fun p => process_image_batch (callModel p.1) p.2)).flatten

/-- `ThreadPoolExecutor(max_workers=len(batches))` at
`batch_analysis.py` line 130: the video thread pool's size. -/
def video_max_workers (preprocessed : List (String × Record))
    (batch_size : ℕ) : ℕ :=
  (videoBatches preprocessed batch_size).length

/-- `ThreadPoolExecutor(max_workers=len(batches))` at
`batch_analysis.py` line 297: the image thread pool's size. -/
def image_max_workers (preprocessed : List (String × Record))
    (batch_size : ℕ) : ℕ :=
  (imageBatches preprocessed batch_size).length

/-! ## The `process_zip_file` pipeline (`main.py` lines 112-344)

The walk over the extracted archive is modelled as a list of
`ArchiveFile`s: a filename plus the outcome of its preprocessing
(`extract_image_features` / `preprocess_video` plus compression) —
`Except.ok features` or `Except.error str(e)`.  `tempPath fn` is the
path returned by the compression step for file `fn` (the compressors
catch their own exceptions and fall back to the original path, so they
never raise).  Directory-level pruning of `__MACOSX` entries is part of
the extraction cleanup and is outside the walk model; the name-level
skips (hidden files, `-analysis.json`) are embedded. -/

structure ArchiveFile : Type where
  name : String
  pre : Except String Record

/-- The skip test of `main.py` line 188: hidden files and persisted
analysis artifacts are not processed. -/
def skipName (name : String) : Bool :=
  ".".data.isPrefixOf name.data || "-analysis.json".data.isSuffixOf name.data

/-- The record assigned to `results[filename]` by the walk: on success
the feature record with `_temp_file_path` set to the compressed path
(`main.py` lines 197-214), on exception the `{error, status: failed}`
record (lines 222-227). -/
def preRecordOf (tempPath : String → String) (f : ArchiveFile) : Record :=
  match f.pre with
  | Except.ok r =>
      mergeRecords r [("_temp_file_path", Val.str (tempPath f.name))]
  | Except.error e => [("error", Val.str e), ("status", Val.str "failed")]

/-- One iteration of the preprocessing walk (`main.py` lines 182-227):
`none` if the file is skipped (hidden / analysis artifact) or has an
unsupported extension, otherwise the record assigned to
`results[filename]`. -/
def preStep (tempPath : String → String) (f : ArchiveFile) :
    Option (String × Record) :=
  if skipName f.name then none
  else if isImageKey f.name || isVideoKey f.name then
    some (f.name, preRecordOf tempPath f)
  else none

/-- Perform the walk iteration's optional dict assignment. -/
def insertStep {β : Type} (a : List (String × β))
    (po : Option (String × β)) : List (String × β) :=
  match po with
  | some p => insertRecord a p.1 p.2
  | none => a

/-- The preprocessing walk: fold of dict assignments over the archive. -/
def preprocessArchive (tempPath : String → String)
    (archive : List ArchiveFile) : List (String × Record) :=
  archive.foldl (fun results f => insertStep results (preStep tempPath f)) []

/-- The image batch size computed at `main.py` line 247:
`max(1, (total_images + 2) // 3)`. -/
def imageBatchSizeOf (totalImages : ℕ) : ℕ := max 1 ((totalImages + 2) / 3)

/-- `image_results` of `main.py` lines 243-253: if any non-error `.png`
record exists, batch-analyze all of them with the computed batch size,
else skip the model entirely. -/
def imageResultsOf (tempPath : String → String) (callModelI : ℕ → ModelCall)
    (archive : List ArchiveFile) : List (String × Record) :=
  if 0 < ((preprocessArchive tempPath archive).filter imageFilter).length then
    batch_analyze_images callModelI (preprocessArchive tempPath archive)
      (imageBatchSizeOf
        ((preprocessArchive tempPath archive).filter imageFilter).length)
  else []

/-- The gate of `main.py` line 263: unlike `batch_analyze_videos`' own
filter it does not require `_temp_file_path`. -/
def videoGateFilter (p : String × Record) : Bool :=
  isVideoKey p.1 && !(hasKey p.2 "error")

/-- `video_results` of `main.py` lines 262-272: batch size 5. -/
def videoResultsOf (tempPath : String → String) (callModelV : ℕ → ModelCall)
    (archive : List ArchiveFile) : List (String × Record) :=
  if 0 < ((preprocessArchive tempPath archive).filter videoGateFilter).length
  then batch_analyze_videos callModelV (preprocessArchive tempPath archive) 5
  else []

/-- Steps 3-5 of `process_zip_file` (`main.py` lines 177-305): preprocess
every file, batch-analyze images (batch size `max(1,(n+2)//3)`) and
videos (batch size 5), then write each batch-analysis record over the
preprocessing record (`results[filename] = analysis`, lines 280-283:
videos first, then images). -/
def process_zip_pipeline (tempPath : String → String)
    (callModelV callModelI : ℕ → ModelCall)
    (archive : List ArchiveFile) : List (String × Record) :=
  (imageResultsOf tempPath callModelI archive).foldl
    (fun acc p => insertRecord acc p.1 p.2)
    ((videoResultsOf tempPath callModelV archive).foldl
      (fun acc p => insertRecord acc p.1 p.2)
      (preprocessArchive tempPath archive))

/-- Number of model calls the pipeline dispatches: one per batch. -/
def pipelineModelCalls (tempPath : String → String)
    (archive : List ArchiveFile) : ℕ :=
  (if 0 < ((preprocessArchive tempPath archive).filter imageFilter).length
   then (imageBatches (preprocessArchive tempPath archive)
      (imageBatchSizeOf
        ((preprocessArchive tempPath archive).filter imageFilter).length)).length
   else 0) +
  (if 0 < ((preprocessArchive tempPath archive).filter videoGateFilter).length
   then (videoBatches (preprocessArchive tempPath archive) 5).length else 0)

/-- `process_zip_file` with its cache decision (`main.py` lines
129-139, 307-310): the dataset's persisted analysis artifact is the
`Option` state.  If it exists the persisted mapping is returned directly
— no extraction, preprocessing, or model call happens (0 model calls);
otherwise the full pipeline runs and its result is persisted (written
exactly once, at line 308).  Returns (result, new persisted artifact,
number of model calls performed). -/
def process_zip_file (persisted : Option (List (String × Record)))
    (tempPath : String → String) (callModelV callModelI : ℕ → ModelCall)
    (archive : List ArchiveFile) :
    List (String × Record) × Option (List (String × Record)) × ℕ :=
  match persisted with
  | some m => (m, some m, 0)
  | none =>
      let r := process_zip_pipeline tempPath callModelV callModelI archive
      (r, some r, pipelineModelCalls tempPath archive)

/-! ## The embedding-text projection (`search_engine.py` lines 7-128)

`create_embedding_text` builds `text_parts` (a Python list of strings)
segment by segment and returns `" ".join(text_parts)`.  JSON arrays are
modelled as string arrays (`Val.arr`), which covers the two array fields
the function touches: `message_types` (string elements) and
`scene_cuts` (only its length is used).  Fields compared against string
constants (`activity_level`, demographics, visibility, urgency) are
string-typed in well-formed analysis records; scored fields are
number-typed (a non-number would raise `TypeError` in Python — such
records are outside the model, and absent fields take the `.get`
defaults exactly as in the source). -/

/-- `analysis_data.get(k, 0)` for a scored field, as a rational. -/
def numValD (d : Record) (k : String) : ℚ :=
  match getVal? d k with
  | some (Val.num q) => q
  | some _ => 0
  | none => 0

/-- `len(analysis_data.get('scene_cuts', []))`. -/
def sceneCutsLen (d : Record) : ℕ :=
  match getVal? d "scene_cuts" with
  | some (Val.arr xs) => xs.length
  | _ => 0

/-- Lines 12-15: activity level keywords. -/
def activityParts (d : Record) : List String :=
  if getVal? d "activity_level" = some (Val.str "dynamic") then
    ["fast-paced dynamic energetic active movement quick"]
  else if getVal? d "activity_level" = some (Val.str "sedentary") then
    ["slow-paced calm static peaceful relaxed"]
  else []

/-- Lines 17-24: music intensity keywords; `music` is
`analysis_data.get('music_intensity', 'low')`. -/
def musicParts (d : Record) : List String :=
  if (getVal? d "music_intensity").getD (Val.str "low") = Val.str "high" then
    ["loud energetic upbeat fast music intense"]
  else if (getVal? d "music_intensity").getD (Val.str "low") =
      Val.str "medium" then ["moderate tempo balanced music"]
  else ["soft calm quiet ambient peaceful music"]

/-- Lines 26-33: scene-cut pacing keywords. -/
def sceneCutsParts (d : Record) : List String :=
  if 10 < sceneCutsLen d then ["fast-paced quick cuts rapid editing dynamic"]
  else if 5 < sceneCutsLen d then ["moderate pacing steady editing"]
  else ["slow-paced few cuts long takes calm"]

/-- Lines 36-77: `indices_config` — (field, strong phrase, weak phrase)
in source order. -/
def indicesConfig : List (String × String × String) :=
  [("luxury_index",
    "luxury luxury luxury expensive expensive premium high-end wealthy exclusive elite sophisticated upscale",
    "somewhat luxury expensive premium"),
   ("success_index",
    "successful successful achievement wealthy accomplished winning triumph victory elite",
    "somewhat successful achievement"),
   ("family_index",
    "family family children parents togetherness belonging home loving caring",
    "somewhat family children parents"),
   ("adventure_index",
    "adventure adventure travel freedom exploration outdoor exciting thrilling journey",
    "somewhat adventure travel outdoor"),
   ("health_index",
    "healthy healthy fitness exercise wellness active energetic vibrant strong",
    "somewhat healthy fitness exercise"),
   ("comfort_index",
    "comfortable comfortable cozy relaxing peaceful homey warm soft gentle",
    "somewhat comfortable cozy relaxing"),
   ("humor_index",
    "funny funny comedy humorous entertaining laughs hilarious amusing playful",
    "somewhat funny comedy humorous"),
   ("love_index",
    "romantic romantic love dating relationships intimate affectionate tender",
    "somewhat romantic love relationships"),
   ("fear_index",
    "security security safety protection warning danger threatening serious urgent",
    "somewhat security safety protection"),
   ("nostalgia_index",
    "nostalgic nostalgic vintage retro classic memories sentimental timeless traditional",
    "somewhat nostalgic vintage retro")]

/-- Lines 80-85: strong phrase when the value is `>= 0.6`, weak phrase
when `>= 0.2`, nothing below `0.2`. -/
def indexParts (d : Record) : List String :=
  indicesConfig.flatMap (fun c =>
    if (0.6 : ℚ) ≤ numValD d c.1 then [c.2.1]
    else if (0.2 : ℚ) ≤ numValD d c.1 then [c.2.2]
    else [])

/-- Lines 88-90: `f"{age_demo} demographic {age_demo} audience"` when
the field is truthy and not `'N/A'`. -/
def ageParts (d : Record) : List String :=
  match getVal? d "age_demographic" with
  | some (Val.str s) =>
      if s ≠ "" ∧ s ≠ "N/A" then [(s ++ " demographic " ++ s) ++ " audience"]
      else []
  | _ => []

/-- Lines 92-94: `f"{gender_demo} audience {gender_demo} demographic"`. -/
def genderParts (d : Record) : List String :=
  match getVal? d "gender_demographic" with
  | some (Val.str s) =>
      if s ≠ "" ∧ s ≠ "N/A" then [(s ++ " audience " ++ s) ++ " demographic"]
      else []
  | _ => []

/-- Lines 97-103: product visibility keywords. -/
def visibilityParts (d : Record) : List String :=
  if getVal? d "product_visibility_score" = some (Val.str "high") then
    ["product-focused prominent product visible showcasing"]
  else if getVal? d "product_visibility_score" = some (Val.str "medium") then
    ["moderate product presence"]
  else if getVal? d "product_visibility_score" = some (Val.str "low") then
    ["brand-awareness subtle product"]
  else []

/-- Lines 106-112: purchase urgency keywords. -/
def urgencyParts (d : Record) : List String :=
  if getVal? d "purchase_urgency" = some (Val.str "high") then
    ["urgent immediate action buy now"]
  else if getVal? d "purchase_urgency" = some (Val.str "medium") then
    ["moderate call-to-action"]
  else if getVal? d "purchase_urgency" = some (Val.str "low") then
    ["brand awareness informational"]
  else []

/-- Lines 116-126: per message type keyword phrase. -/
def msgPhrase (s : String) : List String :=
  if s = "humor" then ["funny comedy humorous entertaining"]
  else if s = "storytelling" then ["narrative story emotional journey"]
  else if s = "demonstration" then ["showing product demo how-to practical"]
  else if s = "emotional_appeal" then ["emotional touching heartfelt moving"]
  else if s = "problem_solution" then
    ["solution problem-solving helpful practical"]
  else []

/-- Lines 115-126: `message_types` loop (default `[]`). -/
def messageParts (d : Record) : List String :=
  match getVal? d "message_types" with
  | some (Val.arr xs) => xs.flatMap msgPhrase
  | _ => []

/-- The `text_parts` list in source order. -/
def textParts (d : Record) : List String :=
  activityParts d ++ musicParts d ++ sceneCutsParts d ++ indexParts d ++
    ageParts d ++ genderParts d ++ visibilityParts d ++ urgencyParts d ++
    messageParts d

/-- `create_embedding_text`: `" ".join(text_parts)`. -/
def create_embedding_text (d : Record) : String :=
  " ".intercalate (textParts d)

/-! ## Search with filters (`search_engine.py` lines 131-265)

An indexed entry is its filename plus the analysis record (the other
Python result fields — file type, similarity, text preview — are
derived).  The embedding model is abstracted as a similarity score per
entry; `search` sorts the (optionally file-type-filtered) entries by
descending similarity (Python's stable `sort(reverse=True)`) and takes
`top_k`.  `search_with_filters` fetches a 50-entry pre-ranked pool and
runs the accumulate-and-break filter loop of lines 233-263. -/

structure SearchResult : Type where
  filename : String
  analysis : Record
deriving DecidableEq

/-- Line 164: `'video' if filename.lower().endswith('.mp4') else 'image'`. -/
def resultFileType (fn : String) : String :=
  if isVideoKey fn then "video" else "image"

/-- `search(query, top_k, file_type)`, with the query embedding and
cosine similarity abstracted into `sim`. -/
def search (corpus : List SearchResult) (sim : SearchResult → ℚ)
    (topK : ℕ) (fileType : Option String) : List SearchResult :=
  let results := corpus.filter (fun r =>
    match fileType with
    | some ft => resultFileType r.filename == ft
    | none => true)
  (results.mergeSort (fun a b => decide (sim b ≤ sim a))).take topK

/-- `data.get(index_name, 0)` coerced to a rational, and the filter
value as a number (numeric filters carry numbers; anything else would
raise `TypeError` in the Python comparison). -/
def valAsNum (v : Val) : ℚ :=
  match v with
  | Val.num q => q
  | _ => 0

/-- One filter check of lines 239-255: `min_`/`max_` prefixes compare
against `data.get(key[4:], 0)`; anything else is an exact match against
`data.get(key)`. -/
def passesOne (data : Record) (key : String) (fv : Val) : Bool :=
  if "min_".data.isPrefixOf key.data then
    !(decide (numValD data (String.mk (key.data.drop 4)) < valAsNum fv))
  else if "max_".data.isPrefixOf key.data then
    !(decide (valAsNum fv < numValD data (String.mk (key.data.drop 4))))
  else decide (getVal? data key = some fv)

/-- All filters must pass (the loop breaks on the first failure). -/
def passes_filters (data : Record) (fs : List (String × Val)) : Bool :=
  fs.all (fun kv => passesOne data kv.1 kv.2)

/-- The accumulate-and-break loop of lines 233-263: append each passing
result, stop as soon as `top_k` results are collected. -/
def filterLoop (fs : List (String × Val)) (topK : ℕ) :
    List SearchResult → List SearchResult → List SearchResult
  | [], acc => acc
  | r :: rs, acc =>
      let acc2 := if passes_filters r.analysis fs then acc ++ [r] else acc
      if topK ≤ acc2.length then acc2 else filterLoop fs topK rs acc2

/-- `search_with_filters`: pool of `search(query, top_k=50)`, then the
filter loop; a `None` or empty filter dict short-circuits to
`initial_results[:top_k]`. -/
def search_with_filters (corpus : List SearchResult)
    (sim : SearchResult → ℚ) :
    Option (List (String × Val)) → ℕ → List SearchResult
  | none, topK => (search corpus sim 50 none).take topK
  | some fs, topK =>
      if fs.isEmpty then (search corpus sim 50 none).take topK
      else filterLoop fs topK (search corpus sim 50 none) []

/-- A family of inputs with `n` valid video records, used to show the
video thread-pool size is not bounded by any constant. -/
def capBusterInput (n : ℕ) : List (String × Record) :=
  (List.range n).map (fun i =>
    (String.mk (List.replicate i 'a' ++ ".mp4".data),
      [("_temp_file_path", Val.str "p")]))

/-- Modelled from the claim's description of the partitioned set: the
records "that have no `error` field and match the media kind".  The
code's own video filter additionally requires a `_temp_file_path` key
(`batch_analysis.py` line 32); this definition exists to compare the
two. -/
def specKindFilter (isKind : String → Bool) (p : String × Record) : Bool :=
  isKind p.1 && !(hasKey p.2 "error")

/-! ## Supporting lemmas about the projection function -/

/-- The fixed phrases contributed by the non-index, non-demographic
branches of `create_embedding_text`. -/
def fixedPhrases : List String :=
  ["fast-paced dynamic energetic active movement quick",
   "slow-paced calm static peaceful relaxed",
   "loud energetic upbeat fast music intense",
   "moderate tempo balanced music",
   "soft calm quiet ambient peaceful music",
   "fast-paced quick cuts rapid editing dynamic",
   "moderate pacing steady editing",
   "slow-paced few cuts long takes calm",
   "product-focused prominent product visible showcasing",
   "moderate product presence",
   "brand-awareness subtle product",
   "urgent immediate action buy now",
   "moderate call-to-action",
   "brand awareness informational",
   "funny comedy humorous entertaining",
   "narrative story emotional journey",
   "showing product demo how-to practical",
   "emotional touching heartfelt moving",
   "solution problem-solving helpful practical"]

/-! ## Theorems -/

theorem chunkList_length {α : Type} (b : ℕ) (l : List α) :
    (chunkList b l).length = numBatches l.length b := by
  simp [chunkList]

theorem chunkList_get {α : Type} (b : ℕ) (l : List α) (i : ℕ)
    (h : i < (chunkList b l).length) :
    (chunkList b l).get ⟨i, h⟩ = (l.drop (i * b)).take b := by
  simp [chunkList]

theorem numBatches_nil (b : ℕ) (hb : 1 ≤ b) : numBatches 0 b = 0 := by
  unfold numBatches
  exact Nat.div_eq_of_lt (by omega)

theorem chunkList_nil {α : Type} (b : ℕ) (hb : 1 ≤ b) :
    chunkList b ([] : List α) = [] := by
  simp [chunkList, numBatches_nil b hb]

theorem numBatches_succ (n b : ℕ) (hb : 1 ≤ b) (hn : 0 < n) :
    numBatches n b = numBatches (n - b) b + 1 := by
  unfold numBatches
  rcases Nat.lt_or_ge n b with h | h
  · have h1 : (n + b - 1) / b = 1 := by
      apply Nat.div_eq_of_lt_le <;> omega
    have h2 : n - b = 0 := by omega
    rw [h1, h2]
    have h3 : (0 + b - 1) / b = 0 := Nat.div_eq_of_lt (by omega)
    omega
  · have : n + b - 1 = (n - b + b - 1) + b := by omega
    rw [this, Nat.add_div_right _ (by omega)]

theorem chunkList_cons {α : Type} (b : ℕ) (l : List α) (hb : 1 ≤ b)
    (hl : l ≠ []) :
    chunkList b l = l.take b :: chunkList b (l.drop b) := by
  have hn : 0 < l.length := List.length_pos.mpr hl
  have hstep := numBatches_succ l.length b hb hn
  unfold chunkList
  rw [List.length_drop, hstep, List.range_succ_eq_map, List.map_cons]
  simp only [Nat.zero_mul, List.drop_zero, List.map_map]
  congr 1
  apply List.map_congr_left
  intro i _
  simp only [Function.comp_apply, List.drop_drop]
  congr 2
  rw [Nat.succ_mul]
  omega

theorem chunkList_flatten {α : Type} (b : ℕ) (l : List α) (hb : 1 ≤ b) :
    (chunkList b l).flatten = l := by
  rcases eq_or_ne l [] with rfl | hl
  · simp [chunkList_nil b hb]
  · rw [chunkList_cons b l hb hl, List.flatten_cons,
      chunkList_flatten b (l.drop b) hb]
    exact List.take_append_drop b l
termination_by l.length
decreasing_by
  have := List.length_pos.mpr hl
  simp only [List.length_drop]
  omega

/-- Under a `Nodup` input the batches are pairwise disjoint. -/
theorem chunkList_disjoint {α : Type} (b : ℕ) (l : List α) (hb : 1 ≤ b)
    (hnd : l.Nodup) : (chunkList b l).Pairwise List.Disjoint := by
  have : (chunkList b l).flatten.Nodup := by
    rw [chunkList_flatten b l hb]; exact hnd
  exact (List.nodup_flatten.mp this).2

theorem chunkList_nodup {α : Type} (b : ℕ) (l : List α) (hb : 1 ≤ b)
    (hnd : l.Nodup) : ∀ c ∈ chunkList b l, c.Nodup := by
  have : (chunkList b l).flatten.Nodup := by
    rw [chunkList_flatten b l hb]; exact hnd
  exact (List.nodup_flatten.mp this).1

/-! ## Association-list (dict) lemmas -/

theorem hasKey_eq_isSome {β : Type} (m : List (String × β)) (k : String) :
    hasKey m k = (getVal? m k).isSome := by
  induction m with
  | nil => rfl
  | cons q rest ih =>
    simp only [hasKey, getVal?, List.any_cons, List.find?_cons] at ih ⊢
    rcases h : (q.1 == k) with _ | _
    · simpa [h] using ih
    · simp [h]

theorem getVal?_eq_some_of_mem {β : Type} {m : List (String × β)}
    {k : String} {v : β} (hnd : (m.map Prod.fst).Nodup)
    (hm : (k, v) ∈ m) : getVal? m k = some v := by
  induction m with
  | nil => cases hm
  | cons p rest ih =>
    rw [List.map_cons] at hnd
    rcases List.nodup_cons.mp hnd with ⟨hne, hnd'⟩
    rcases List.mem_cons.mp hm with heq | hm'
    · rw [← heq]
      simp [getVal?]
    · have hk : p.1 ≠ k := by
        intro h
        apply hne
        rw [h]
        exact List.mem_map_of_mem Prod.fst hm'
      simp only [getVal?, List.find?_cons]
      rw [show (p.1 == k) = false from by simp [hk]]
      exact ih hnd' hm'

theorem getVal?_eq_none {β : Type} {m : List (String × β)} {k : String}
    (h : ∀ p ∈ m, p.1 ≠ k) : getVal? m k = none := by
  have hf : m.find? (fun p => p.1 == k) = none := by
    rw [List.find?_eq_none]
    intro p hp
    simp [h p hp]
  simp [getVal?, hf]

theorem mem_of_getVal?_eq_some {β : Type} {m : List (String × β)}
    {k : String} {v : β} (h : getVal? m k = some v) : (k, v) ∈ m := by
  unfold getVal? at h
  rcases hf : m.find? (fun p => p.1 == k) with _ | p
  · rw [hf] at h
    cases h
  · rw [hf] at h
    have hk := List.find?_some hf
    have hmem := List.mem_of_find?_eq_some hf
    rcases p with ⟨a, bv⟩
    simp only [beq_iff_eq] at hk
    have hv : bv = v := by simpa using h
    rw [← hk, ← hv]
    exact hmem

theorem hasKey_false_iff {β : Type} (m : List (String × β)) (k : String) :
    hasKey m k = false ↔ ∀ p ∈ m, p.1 ≠ k := by
  simp only [hasKey, List.any_eq_false, beq_iff_eq]

theorem hasKey_true_iff {β : Type} (m : List (String × β)) (k : String) :
    hasKey m k = true ↔ ∃ p ∈ m, p.1 = k := by
  simp only [hasKey, List.any_eq_true, beq_iff_eq]

theorem getVal?_mergeRecords (a b : Record) (k : String) :
    getVal? (mergeRecords a b) k =
      if hasKey b k then getVal? b k else getVal? a k := by
  unfold mergeRecords getVal?
  rw [List.find?_append]
  rcases hb : hasKey b k with _ | _
  · have hfb : b.find? (fun p => p.1 == k) = none := by
      rw [List.find?_eq_none]
      intro p hp
      simp [(hasKey_false_iff b k).mp hb p hp]
    have hfa : (a.filter (fun p => !(hasKey b p.1))).find?
        (fun p => p.1 == k) = a.find? (fun p => p.1 == k) := by
      induction a with
      | nil => rfl
      | cons q rest ih =>
        rcases hq : (q.1 == k) with _ | _
        · rcases hqb : hasKey b q.1 with _ | _
          · rw [List.filter_cons_of_pos (by simp [hqb]), List.find?_cons,
              List.find?_cons, hq]
            exact ih
          · rw [List.filter_cons_of_neg (by simp [hqb]), List.find?_cons, hq]
            exact ih
        · have hq' : q.1 = k := by simpa using hq
          have hkb : hasKey b q.1 = false := by rw [hq']; exact hb
          rw [List.filter_cons_of_pos (by simp [hkb]), List.find?_cons,
            List.find?_cons, hq]
    rw [hfa, hfb]
    simp
  · have hfa : (a.filter (fun p => !(hasKey b p.1))).find?
        (fun p => p.1 == k) = none := by
      rw [List.find?_eq_none]
      intro p hp
      have hpk := List.of_mem_filter hp
      simp only [Bool.not_eq_eq_eq_not, Bool.not_true] at hpk
      simp only [beq_iff_eq]
      intro hk
      rw [hk] at hpk
      rw [hpk] at hb
      cases hb
    rw [hfa]
    simp

theorem hasKey_mergeRecords (a b : Record) (k : String) :
    hasKey (mergeRecords a b) k = (hasKey a k || hasKey b k) := by
  rcases hb : hasKey b k with _ | _
  · rw [hasKey_eq_isSome, getVal?_mergeRecords, hb]
    simp only [Bool.false_eq_true, if_false, Bool.or_false]
    exact (hasKey_eq_isSome a k).symm
  · rw [hasKey_eq_isSome, getVal?_mergeRecords, hb]
    simp only [if_true, Bool.or_true]
    rw [← hasKey_eq_isSome]
    exact hb

theorem getVal?_mapReplace {β : Type} (m : List (String × β)) (k k' : String) (v : β) :
    getVal? (m.map (fun p => if p.1 == k then (k, v) else p)) k' =
      if k' = k then (if hasKey m k then some v else none)
      else getVal? m k' := by
  induction m with
  | nil =>
    by_cases hk : k' = k <;> simp [getVal?, hasKey, hk]
  | cons q rest ih =>
    rw [List.map_cons]
    by_cases hq : q.1 = k
    · by_cases hk : k' = k
      · subst hk
        simp [getVal?, hasKey, List.find?_cons, hq]
      · have hk2 : (k == k') = false := by
          simp only [beq_eq_false_iff_ne, ne_eq]
          exact fun h => hk h.symm
        have hq2 : (q.1 == k') = false := by
          simp only [beq_eq_false_iff_ne, ne_eq, hq]
          exact fun h => hk h.symm
        simp only [if_pos (show (q.1 == k) = true from by simp [hq])]
        simp only [getVal?, List.find?_cons, hk2, hq2] at ih ⊢
        simp only [if_neg hk] at ih ⊢
        exact ih
    · have hq1 : (q.1 == k) = false := by simp [hq]
      rw [if_neg (by simp [hq] : ¬(q.1 == k) = true)]
      by_cases hk : k' = k
      · subst hk
        simp only [getVal?, List.find?_cons, hasKey, List.any_cons, hq1] at ih ⊢
        simp only [if_true] at ih ⊢
        simp only [Bool.false_or]
        exact ih
      · by_cases hq' : q.1 = k'
        · simp [getVal?, List.find?_cons, hq', hk]
        · have hq2 : (q.1 == k') = false := by simp [hq']
          simp only [getVal?, List.find?_cons, hq2] at ih ⊢
          simp only [if_neg hk] at ih ⊢
          exact ih

theorem getVal?_insertRecord {β : Type} (m : List (String × β)) (k k' : String)
    (v : β) :
    getVal? (insertRecord m k v) k' = if k' = k then some v else getVal? m k' := by
  unfold insertRecord
  rcases hm : hasKey m k with _ | _
  · simp only [Bool.false_eq_true, if_false]
    unfold getVal?
    rw [List.find?_append]
    by_cases hk : k' = k
    · subst hk
      have hf : m.find? (fun p => p.1 == k') = none := by
        rw [List.find?_eq_none]
        intro p hp
        simp [(hasKey_false_iff m k').mp hm p hp]
      simp [hf]
    · have h1 : List.find? (fun p => p.1 == k') [(k, v)] = none := by
        simp only [List.find?_cons, List.find?_nil]
        rw [show ((k, v).1 == k') = false from by
          simp only [beq_eq_false_iff_ne, ne_eq]
          exact fun h => hk h.symm]
      rw [h1, if_neg hk]
      simp [getVal?]
  · simp only [if_true]
    rw [getVal?_mapReplace]
    by_cases hk : k' = k
    · subst hk
      simp [hm]
    · simp [hk]

theorem map_fst_insertRecord {β : Type} (m : List (String × β)) (k : String)
    (v : β) :
    (insertRecord m k v).map Prod.fst =
      if hasKey m k then m.map Prod.fst else m.map Prod.fst ++ [k] := by
  unfold insertRecord
  rcases hm : hasKey m k with _ | _
  · simp
  · simp only [if_true, List.map_map]
    apply List.map_congr_left
    intro p _
    by_cases hp : p.1 = k
    · simp [hp]
    · simp [hp]

theorem nodup_fst_insertRecord {β : Type} (m : List (String × β)) (k : String)
    (v : β) (hnd : (m.map Prod.fst).Nodup) :
    ((insertRecord m k v).map Prod.fst).Nodup := by
  rw [map_fst_insertRecord]
  rcases hm : hasKey m k with _ | _
  · simp only [Bool.false_eq_true, if_false]
    rw [List.nodup_append]
    refine ⟨hnd, List.nodup_singleton k, ?_⟩
    intro a ha hb
    simp only [List.mem_singleton] at hb
    subst hb
    obtain ⟨p, hp, hpk⟩ := List.mem_map.mp ha
    exact (hasKey_false_iff m a).mp hm p hp hpk
  · simpa using hnd

/-! ## Supporting lemmas about the batch orchestration -/

theorem hasKey_append {β : Type} (a b : List (String × β)) (k : String) :
    hasKey (a ++ b) k = (hasKey a k || hasKey b k) := by
  simp [hasKey, List.any_append]

theorem getVal?_eq_none_of_not_key {β : Type} {m : List (String × β)}
    {k : String} (h : hasKey m k = false) : getVal? m k = none :=
  getVal?_eq_none ((hasKey_false_iff m k).mp h)

theorem hasKey_stripTemp (r : Record) (k : String)
    (hk : k ≠ "_temp_file_path") : hasKey (stripTemp r) k = hasKey r k := by
  unfold stripTemp
  induction r with
  | nil => rfl
  | cons q rest ih =>
    by_cases hq : q.1 = "_temp_file_path"
    · rw [List.filter_cons_of_neg (by simp [hq])]
      have : (q.1 == k) = false := by
        simp only [beq_eq_false_iff_ne, ne_eq, hq]
        exact fun h => hk h.symm
      simp only [hasKey, List.any_cons, this, Bool.false_or] at ih ⊢
      exact ih
    · rw [List.filter_cons_of_pos (by simp [hq])]
      simp only [hasKey, List.any_cons] at ih ⊢
      rw [ih]

theorem getVal?_stripTemp (r : Record) (k : String)
    (hk : k ≠ "_temp_file_path") : getVal? (stripTemp r) k = getVal? r k := by
  unfold stripTemp
  induction r with
  | nil => rfl
  | cons q rest ih =>
    by_cases hq : q.1 = "_temp_file_path"
    · rw [List.filter_cons_of_neg (by simp [hq])]
      have : (q.1 == k) = false := by
        simp only [beq_eq_false_iff_ne, ne_eq, hq]
        exact fun h => hk h.symm
      simp only [getVal?, List.find?_cons, this] at ih ⊢
      exact ih
    · rw [List.filter_cons_of_pos (by simp [hq])]
      simp only [getVal?, List.find?_cons] at ih ⊢
      rcases hq' : (q.1 == k) with _ | _
      · exact ih
      · rfl

theorem hasKey_stripTemp_temp (r : Record) :
    hasKey (stripTemp r) "_temp_file_path" = false := by
  rw [hasKey_false_iff]
  intro p hp
  have := List.of_mem_filter hp
  simpa using this

theorem map_fst_process_batch (c : ModelCall)
    (batch : List (String × Record)) :
    (process_batch c batch).map Prod.fst = batch.map Prod.fst := by
  unfold process_batch
  rcases c (batch.map Prod.fst) with e | parsed <;> simp

theorem map_fst_process_image_batch (c : ModelCall)
    (batch : List (String × Record)) :
    (process_image_batch c batch).map Prod.fst = batch.map Prod.fst := by
  unfold process_image_batch
  rcases c (batch.map Prod.fst) with e | parsed <;> simp

theorem enum_map_comp {α β : Type} (l : List α) (g : α → β) :
    l.enum.map (fun p => g p.2) = l.map g := by
  rw [show (fun p : ℕ × α => g p.2) = g ∘ Prod.snd from rfl, ← List.map_map,
    List.enum_map_snd]

theorem map_fst_batch_analyze_videos (cm : ℕ → ModelCall)
    (m : List (String × Record)) (b : ℕ) (hb : 1 ≤ b) :
    (batch_analyze_videos cm m b).map Prod.fst =
      (m.filter videoFilter).map Prod.fst := by
  unfold batch_analyze_videos
  rw [List.map_flatten, List.map_map]
  have h1 : ((videoBatches m b).enum.map
      ((List.map Prod.fst) ∘ (fun p => process_batch (cm p.1) p.2)))
      = (videoBatches m b).enum.map (fun p => p.2.map Prod.fst) := by
    apply List.map_congr_left
    intro p _
    exact map_fst_process_batch (cm p.1) p.2
  rw [h1, enum_map_comp]
  unfold videoBatches
  rw [show (chunkList b (m.filter videoFilter)).map (List.map Prod.fst)
      = chunkList b ((m.filter videoFilter).map Prod.fst) from by
    unfold chunkList
    simp only [List.map_map, List.length_map]
    apply List.map_congr_left
    intro i _
    simp [List.map_take, List.map_drop]]
  exact chunkList_flatten b _ hb

theorem map_fst_batch_analyze_images (cm : ℕ → ModelCall)
    (m : List (String × Record)) (b : ℕ) (hb : 1 ≤ b) :
    (batch_analyze_images cm m b).map Prod.fst =
      (m.filter imageFilter).map Prod.fst := by
  unfold batch_analyze_images
  rw [List.map_flatten, List.map_map]
  have h1 : ((imageBatches m b).enum.map
      ((List.map Prod.fst) ∘ (fun p => process_image_batch (cm p.1) p.2)))
      = (imageBatches m b).enum.map (fun p => p.2.map Prod.fst) := by
    apply List.map_congr_left
    intro p _
    exact map_fst_process_image_batch (cm p.1) p.2
  rw [h1, enum_map_comp]
  unfold imageBatches
  rw [show (chunkList b (m.filter imageFilter)).map (List.map Prod.fst)
      = chunkList b ((m.filter imageFilter).map Prod.fst) from by
    unfold chunkList
    simp only [List.map_map, List.length_map]
    apply List.map_congr_left
    intro i _
    simp [List.map_take, List.map_drop]]
  exact chunkList_flatten b _ hb

/-- Every entry a video batch run produces: the key is a filtered input
key, and the value merges the cleaned preprocessing record with either
an `analysis_error` marker or an analysis object delivered by the model
call of some batch. -/
theorem mem_batch_analyze_videos {cm : ℕ → ModelCall}
    {m : List (String × Record)} {b : ℕ} {fn : String} {v : Record}
    (hb : 1 ≤ b) (hmem : (fn, v) ∈ batch_analyze_videos cm m b) :
    ∃ p ∈ m.filter videoFilter, p.1 = fn ∧
      ((∃ e, v = mergeRecords (stripTemp p.2) [("analysis_error", Val.str e)]) ∨
       (∃ j fns blob k a, cm j fns = Except.ok (some blob) ∧ (k, a) ∈ blob ∧
          v = mergeRecords (stripTemp p.2) a)) := by
  unfold batch_analyze_videos at hmem
  obtain ⟨part, hpart, hentry⟩ := List.mem_flatten.mp hmem
  obtain ⟨pr, hpr, hpart_eq⟩ := List.mem_map.mp hpart
  have hchunk : pr.2 ∈ videoBatches m b := by
    have := List.mem_map_of_mem Prod.snd hpr
    rwa [List.enum_map_snd] at this
  have hsub : ∀ p ∈ pr.2, p ∈ m.filter videoFilter := by
    intro p hp
    have : p ∈ (videoBatches m b).flatten := List.mem_flatten.mpr ⟨pr.2, hchunk, hp⟩
    rwa [videoBatches, chunkList_flatten b _ hb] at this
  subst hpart_eq
  unfold process_batch at hentry
  rcases hcall : cm pr.1 (pr.2.map Prod.fst) with e | parsed
  · rw [hcall] at hentry
    obtain ⟨p, hp, heq⟩ := List.mem_map.mp hentry
    refine ⟨p, hsub p hp, ?_, Or.inl ⟨e, ?_⟩⟩
    · exact congrArg Prod.fst heq
    · exact (congrArg Prod.snd heq).symm
  · rw [hcall] at hentry
    obtain ⟨p, hp, heq⟩ := List.mem_map.mp hentry
    rw [Prod.mk.injEq] at heq
    obtain ⟨hfn, hv⟩ := heq
    rcases hba : getVal? (reconcile_indices parsed (pr.2.map Prod.fst)) p.1
      with _ | a
    · rw [hba] at hv
      exact ⟨p, hsub p hp, hfn,
        Or.inl ⟨"Failed to get Gemini analysis", hv.symm⟩⟩
    · rw [hba] at hv
      have hmem_ba := mem_of_getVal?_eq_some hba
      rcases parsed with _ | blob
      · cases hmem_ba
      · obtain ⟨q, _, hq⟩ := List.mem_filterMap.mp hmem_ba
        rcases hblob : getVal? blob (toString q.1) with _ | r
        · rw [hblob] at hq
          cases hq
        · rw [hblob] at hq
          have hq2 : (q.2, r) = (p.1, a) := by simpa using hq
          have hr : r = a := congrArg Prod.snd hq2
          refine ⟨p, hsub p hp, hfn, Or.inr
            ⟨pr.1, pr.2.map Prod.fst, blob, toString q.1, a, hcall, ?_, hv.symm⟩⟩
          rw [← hr]
          exact mem_of_getVal?_eq_some hblob

/-- Image analogue of `mem_batch_analyze_videos` (no `_temp_file_path`
stripping). -/
theorem mem_batch_analyze_images {cm : ℕ → ModelCall}
    {m : List (String × Record)} {b : ℕ} {fn : String} {v : Record}
    (hb : 1 ≤ b) (hmem : (fn, v) ∈ batch_analyze_images cm m b) :
    ∃ p ∈ m.filter imageFilter, p.1 = fn ∧
      ((∃ e, v = mergeRecords p.2 [("analysis_error", Val.str e)]) ∨
       (∃ j fns blob k a, cm j fns = Except.ok (some blob) ∧ (k, a) ∈ blob ∧
          v = mergeRecords p.2 a)) := by
  unfold batch_analyze_images at hmem
  obtain ⟨part, hpart, hentry⟩ := List.mem_flatten.mp hmem
  obtain ⟨pr, hpr, hpart_eq⟩ := List.mem_map.mp hpart
  have hchunk : pr.2 ∈ imageBatches m b := by
    have := List.mem_map_of_mem Prod.snd hpr
    rwa [List.enum_map_snd] at this
  have hsub : ∀ p ∈ pr.2, p ∈ m.filter imageFilter := by
    intro p hp
    have : p ∈ (imageBatches m b).flatten := List.mem_flatten.mpr ⟨pr.2, hchunk, hp⟩
    rwa [imageBatches, chunkList_flatten b _ hb] at this
  subst hpart_eq
  unfold process_image_batch at hentry
  rcases hcall : cm pr.1 (pr.2.map Prod.fst) with e | parsed
  · rw [hcall] at hentry
    obtain ⟨p, hp, heq⟩ := List.mem_map.mp hentry
    refine ⟨p, hsub p hp, ?_, Or.inl ⟨e, ?_⟩⟩
    · exact congrArg Prod.fst heq
    · exact (congrArg Prod.snd heq).symm
  · rw [hcall] at hentry
    obtain ⟨p, hp, heq⟩ := List.mem_map.mp hentry
    rw [Prod.mk.injEq] at heq
    obtain ⟨hfn, hv⟩ := heq
    rcases hba : getVal? (reconcile_indices parsed (pr.2.map Prod.fst)) p.1
      with _ | a
    · rw [hba] at hv
      exact ⟨p, hsub p hp, hfn,
        Or.inl ⟨"Failed to get Gemini analysis", hv.symm⟩⟩
    · rw [hba] at hv
      have hmem_ba := mem_of_getVal?_eq_some hba
      rcases parsed with _ | blob
      · cases hmem_ba
      · obtain ⟨q, _, hq⟩ := List.mem_filterMap.mp hmem_ba
        rcases hblob : getVal? blob (toString q.1) with _ | r
        · rw [hblob] at hq
          cases hq
        · rw [hblob] at hq
          have hq2 : (q.2, r) = (p.1, a) := by simpa using hq
          have hr : r = a := congrArg Prod.snd hq2
          refine ⟨p, hsub p hp, hfn, Or.inr
            ⟨pr.1, pr.2.map Prod.fst, blob, toString q.1, a, hcall, ?_, hv.symm⟩⟩
          rw [← hr]
          exact mem_of_getVal?_eq_some hblob

/-- An entry produced by the batch at index `j` is found in the merged
video result mapping with exactly its per-batch value (the batches'
key sets are disjoint, so the thread pool's arbitrary completion order
cannot change it). -/
theorem getVal?_flatten_part_videos {cm : ℕ → ModelCall}
    {m : List (String × Record)} {b : ℕ} (hb : 1 ≤ b)
    (hnd : ((m.filter videoFilter).map Prod.fst).Nodup)
    {j : ℕ} (hj : j < (videoBatches m b).length) {fn : String} {v : Record}
    (hmem : (fn, v) ∈ process_batch (cm j) ((videoBatches m b).get ⟨j, hj⟩)) :
    getVal? (batch_analyze_videos cm m b) fn = some v := by
  apply getVal?_eq_some_of_mem
  · rw [map_fst_batch_analyze_videos cm m b hb]
    exact hnd
  · unfold batch_analyze_videos
    refine List.mem_flatten.mpr
      ⟨process_batch (cm j) ((videoBatches m b).get ⟨j, hj⟩), ?_, hmem⟩
    have hj' : j < ((videoBatches m b).enum.map
        (fun p => process_batch (cm p.1) p.2)).length := by simpa using hj
    have hget : ((videoBatches m b).enum.map
        (fun p => process_batch (cm p.1) p.2)).get ⟨j, hj'⟩ =
        process_batch (cm j) ((videoBatches m b).get ⟨j, hj⟩) := by
      simp [List.get_eq_getElem, List.getElem_map, List.getElem_enum]
    rw [← hget]
    exact List.get_mem _ _ _

/-- Image analogue of `getVal?_flatten_part_videos`. -/
theorem getVal?_flatten_part_images {cm : ℕ → ModelCall}
    {m : List (String × Record)} {b : ℕ} (hb : 1 ≤ b)
    (hnd : ((m.filter imageFilter).map Prod.fst).Nodup)
    {j : ℕ} (hj : j < (imageBatches m b).length) {fn : String} {v : Record}
    (hmem : (fn, v) ∈ process_image_batch (cm j) ((imageBatches m b).get ⟨j, hj⟩)) :
    getVal? (batch_analyze_images cm m b) fn = some v := by
  apply getVal?_eq_some_of_mem
  · rw [map_fst_batch_analyze_images cm m b hb]
    exact hnd
  · unfold batch_analyze_images
    refine List.mem_flatten.mpr
      ⟨process_image_batch (cm j) ((imageBatches m b).get ⟨j, hj⟩), ?_, hmem⟩
    have hj' : j < ((imageBatches m b).enum.map
        (fun p => process_image_batch (cm p.1) p.2)).length := by simpa using hj
    have hget : ((imageBatches m b).enum.map
        (fun p => process_image_batch (cm p.1) p.2)).get ⟨j, hj'⟩ =
        process_image_batch (cm j) ((imageBatches m b).get ⟨j, hj⟩) := by
      simp [List.get_eq_getElem, List.getElem_map, List.getElem_enum]
    rw [← hget]
    exact List.get_mem _ _ _

/-- C3: for a run with multiple batches, if the model call for one batch
raises, every filename of that batch maps to its cleaned preprocessing
record plus `analysis_error: str(e)`; the per-file results of every
other batch are committed to the final mapping exactly as that batch
produced them; and the run still covers every filtered filename (the
exception is absorbed at the batch boundary, never propagated).  Both
media kinds are covered. -/
theorem batch_failure_isolation
    (cmv cmi : ℕ → ModelCall) (m : List (String × Record)) (bv bi : ℕ)
    (hbv : 1 ≤ bv) (hbi : 1 ≤ bi)
    (hndv : ((m.filter videoFilter).map Prod.fst).Nodup)
    (hndi : ((m.filter imageFilter).map Prod.fst).Nodup)
    (jv : ℕ) (hjv : jv < (videoBatches m bv).length)
    (hmult_v : 2 ≤ (videoBatches m bv).length) (ev : String)
    (hfail_v : cmv jv (((videoBatches m bv).get ⟨jv, hjv⟩).map Prod.fst) =
      Except.error ev)
    (ji : ℕ) (hji : ji < (imageBatches m bi).length)
    (hmult_i : 2 ≤ (imageBatches m bi).length) (ei : String)
    (hfail_i : cmi ji (((imageBatches m bi).get ⟨ji, hji⟩).map Prod.fst) =
      Except.error ei) :
    (∀ p ∈ (videoBatches m bv).get ⟨jv, hjv⟩,
        getVal? (batch_analyze_videos cmv m bv) p.1 =
          some (mergeRecords (stripTemp p.2) [("analysis_error", Val.str ev)])) ∧
    (∀ k, ∀ hk : k < (videoBatches m bv).length, k ≠ jv →
        ∀ q ∈ process_batch (cmv k) ((videoBatches m bv).get ⟨k, hk⟩),
          getVal? (batch_analyze_videos cmv m bv) q.1 = some q.2) ∧
    (batch_analyze_videos cmv m bv).map Prod.fst =
      (m.filter videoFilter).map Prod.fst ∧
    (∀ p ∈ (imageBatches m bi).get ⟨ji, hji⟩,
        getVal? (batch_analyze_images cmi m bi) p.1 =
          some (mergeRecords p.2 [("analysis_error", Val.str ei)])) ∧
    (∀ k, ∀ hk : k < (imageBatches m bi).length, k ≠ ji →
        ∀ q ∈ process_image_batch (cmi k) ((imageBatches m bi).get ⟨k, hk⟩),
          getVal? (batch_analyze_images cmi m bi) q.1 = some q.2) ∧
    (batch_analyze_images cmi m bi).map Prod.fst =
      (m.filter imageFilter).map Prod.fst := by
  refine ⟨?_, ?_, map_fst_batch_analyze_videos cmv m bv hbv, ?_, ?_,
    map_fst_batch_analyze_images cmi m bi hbi⟩
  · intro p hp
    apply getVal?_flatten_part_videos hbv hndv hjv
    unfold process_batch
    rw [hfail_v]
    exact List.mem_map_of_mem
      (fun p => (p.1, mergeRecords (stripTemp p.2)
        [("analysis_error", Val.str ev)])) hp
  · intro k hk _ q hq
    rcases q with ⟨fn, v⟩
    exact getVal?_flatten_part_videos hbv hndv hk hq
  · intro p hp
    apply getVal?_flatten_part_images hbi hndi hji
    unfold process_image_batch
    rw [hfail_i]
    exact List.mem_map_of_mem
      (fun p => (p.1, mergeRecords p.2 [("analysis_error", Val.str ei)])) hp
  · intro k hk _ q hq
    rcases q with ⟨fn, v⟩
    exact getVal?_flatten_part_images hbi hndi hk hq

/-- Keys of a reconciled mapping form a sublist of the expected
filename list. -/
theorem parse_keys_sublist (blob : JsonBlob) (l : List (ℕ × String)) :
    ((l.filterMap (fun p =>
      (getVal? blob (toString p.1)).map (fun r => (p.2, r)))).map
        Prod.fst).Sublist (l.map Prod.snd) := by
  induction l with
  | nil => exact List.Sublist.refl _
  | cons q rest ih =>
    rw [List.filterMap_cons]
    rcases h : getVal? blob (toString q.1) with _ | r
    · rw [List.map_cons]
      exact ih.cons q.2
    · simp only [Option.map_some, List.map_cons]
      exact ih.cons₂ q.2

/-- On an object parse the reconciliation loop never raises and equals
the `filterMap` form used by the per-batch workers. -/
theorem parseLoop_dict (blob : JsonBlob) (l : List (ℕ × String)) :
    parseLoop (ParsedJson.jdict blob) l = Except.ok (l.filterMap (fun p =>
      (getVal? blob (toString p.1)).map (fun r => (p.2, r)))) := by
  induction l with
  | nil => rfl
  | cons q rest ih =>
    rw [List.filterMap_cons]
    rcases h : getVal? blob (toString q.1) with _ | r
    · have hk : hasKey blob (toString q.1) = false := by
        rw [hasKey_eq_isSome, h]
        rfl
      simp [parseLoop, pyContains, hk, ih]
    · have hk : hasKey blob (toString q.1) = true := by
        rw [hasKey_eq_isSome, h]
        rfl
      simp [parseLoop, pyContains, pyGetItem, hk, h, ih]

/-- `parse_batch_response` on an object parse agrees with the
non-raising reconciliation used by the per-batch workers. -/
theorem parse_batch_response_dict (blob : JsonBlob) (fns : List String) :
    parse_batch_response (some (ParsedJson.jdict blob)) fns =
      Except.ok (reconcile_indices (some blob) fns) := by
  show parseLoop (ParsedJson.jdict blob) fns.enum = _
  rw [parseLoop_dict]
  rfl

/-- On a scalar parse the loop raises `TypeError` at its first index:
`in` is not defined on a non-container. -/
theorem parseLoop_scalar (q : ℕ × String) (rest : List (ℕ × String)) :
    parseLoop ParsedJson.jscalar (q :: rest) = Except.error "TypeError" :=
  rfl

/-- On a parse whose containment test is total (list or string) but
whose subscript always raises, the loop raises `TypeError` exactly when
some index's decimal string passes the containment test, and otherwise
maps nothing. -/
theorem parseLoop_raises (p : ParsedJson) (memb : String → Bool)
    (hc : ∀ k, pyContains p k = Except.ok (memb k))
    (hg : ∀ k, pyGetItem p k = Except.error "TypeError")
    (l : List (ℕ × String)) :
    parseLoop p l =
      (if l.any (fun q => memb (toString q.1)) = true
       then Except.error "TypeError" else Except.ok []) := by
  induction l with
  | nil => rfl
  | cons q rest ih =>
    have hstep : parseLoop p (q :: rest) =
        (if memb (toString q.1) = true then Except.error "TypeError"
         else parseLoop p rest) := by
      cases hm : memb (toString q.1) with
      | false => simp [parseLoop, hc, hm]
      | true => simp [parseLoop, hc, hg, hm]
    rw [hstep, List.any_cons, ih]
    cases hm : memb (toString q.1) with
    | false =>
      rw [Bool.false_or]
      rfl
    | true =>
      rw [Bool.true_or]
      rfl

/-- An enumerated list has an entry whose index satisfies `f` exactly
when some position below the length does. -/
theorem enum_any_iff {α : Type} (f : ℕ → Bool) (l : List α) :
    (l.enum.any (fun q => f q.1) = true) ↔
      ∃ i, ∃ _ : i < l.length, f i = true := by
  rw [List.any_eq_true]
  constructor
  · rintro ⟨q, hq, hf⟩
    obtain ⟨hlt, -⟩ := @List.mem_enum _ q.2 q.1 _ (by simpa using hq)
    exact ⟨q.1, hlt, hf⟩
  · rintro ⟨i, hi, hf⟩
    refine ⟨(i, l.get ⟨i, hi⟩), ?_, hf⟩
    have : l.enum.get ⟨i, by simpa using hi⟩ = (i, l.get ⟨i, hi⟩) := by
      simp [List.get_eq_getElem, List.getElem_enum]
    rw [← this]
    exact List.get_mem _ _ _

/-- C4 counterexample: the claim's "never raises" is false.  For the
valid-JSON non-object responses `5` (a scalar) and `["0"]` (a list)
with a nonempty filename list, the loop raises an uncaught `TypeError`
(`"0" in 5` is not defined; `["0"]["0"]` is not a valid subscript) —
only `json.JSONDecodeError` is caught. -/
theorem parse_batch_response_counterexample :
    parse_batch_response (some ParsedJson.jscalar) ["a.mp4"] =
      Except.error "TypeError" ∧
    parse_batch_response (some (ParsedJson.jlist ["0"])) ["a.mp4"] =
      Except.error "TypeError" :=
  ⟨rfl, rfl⟩

/-- C4: for an object parse, `parse_batch_response` maps blob key
`str(i)` to `filenames[i]`, omits filenames whose index key is absent
(partial results, not all-or-nothing), and a parse failure — the
caught `json.JSONDecodeError`, modelled by the `none` input — yields
the empty mapping; on `[f0,f1,f2]` with response keys `0` and `2` it
returns exactly `{f0: A, f2: C}`.  But the function is not
raise-free: a valid-JSON non-object response raises an uncaught
`TypeError` — always for a scalar parse with a nonempty filename
list, and for a list (resp. string) parse exactly when some expected
index's decimal string is an element (resp. substring) of it;
otherwise no index key is found and the loop returns the empty
mapping. -/
theorem parse_batch_response_reconciliation
    (blob : JsonBlob) (filenames : List String) (hnd : filenames.Nodup) :
    (∀ (i : ℕ) (hi : i < filenames.length) (A : Record),
        getVal? blob (toString i) = some A →
        getVal? (reconcile_indices (some blob) filenames)
          (filenames.get ⟨i, hi⟩) = some A) ∧
    (∀ (i : ℕ) (hi : i < filenames.length),
        getVal? blob (toString i) = none →
        hasKey (reconcile_indices (some blob) filenames)
          (filenames.get ⟨i, hi⟩) = false) ∧
    parse_batch_response (some (ParsedJson.jdict blob)) filenames =
      Except.ok (reconcile_indices (some blob) filenames) ∧
    parse_batch_response none filenames = Except.ok [] ∧
    (∀ (f0 f1 f2 : String) (A C : Record),
        parse_batch_response (some (ParsedJson.jdict [("0", A), ("2", C)]))
          [f0, f1, f2] = Except.ok [(f0, A), (f2, C)]) ∧
    (filenames ≠ [] →
        parse_batch_response (some ParsedJson.jscalar) filenames =
          Except.error "TypeError") ∧
    (∀ elems : List String,
        ((∃ i, ∃ _ : i < filenames.length,
            elems.contains (toString i) = true) →
          parse_batch_response (some (ParsedJson.jlist elems)) filenames =
            Except.error "TypeError") ∧
        ((∀ i, i < filenames.length → elems.contains (toString i) = false) →
          parse_batch_response (some (ParsedJson.jlist elems)) filenames =
            Except.ok [])) ∧
    (∀ s : String,
        ((∃ i, ∃ _ : i < filenames.length,
            hasSubstr (toString i).data s.data = true) →
          parse_batch_response (some (ParsedJson.jstr s)) filenames =
            Except.error "TypeError") ∧
        ((∀ i, i < filenames.length →
            hasSubstr (toString i).data s.data = false) →
          parse_batch_response (some (ParsedJson.jstr s)) filenames =
            Except.ok [])) := by
  have hkeys : ((reconcile_indices (some blob) filenames).map
      Prod.fst).Sublist filenames := by
    have := parse_keys_sublist blob filenames.enum
    rwa [List.enum_map_snd] at this
  have h0 : toString (0 : ℕ) = "0" := rfl
  have h1 : toString (1 : ℕ) = "1" := rfl
  have h2 : toString (2 : ℕ) = "2" := rfl
  refine ⟨?_, ?_, parse_batch_response_dict blob filenames, rfl, ?_, ?_,
    ?_, ?_⟩
  · intro i hi A hA
    apply getVal?_eq_some_of_mem (hkeys.nodup hnd)
    unfold reconcile_indices
    apply List.mem_filterMap.mpr
    refine ⟨(i, filenames.get ⟨i, hi⟩), ?_, by rw [hA]; rfl⟩
    have : filenames.enum.get ⟨i, by simpa using hi⟩ =
        (i, filenames.get ⟨i, hi⟩) := by
      simp [List.get_eq_getElem, List.getElem_enum]
    rw [← this]
    exact List.get_mem _ _ _
  · intro i hi hA
    rw [hasKey_false_iff]
    intro p hp hpk
    unfold reconcile_indices at hp
    obtain ⟨q, hq, hqe⟩ := List.mem_filterMap.mp hp
    rcases hg : getVal? blob (toString q.1) with _ | r
    · rw [hg] at hqe
      cases hqe
    · rw [hg] at hqe
      have hq2 : (q.2, r) = p := by simpa using hqe
      have hqsnd : q.2 = p.1 := congrArg Prod.fst hq2
      obtain ⟨hql, hqv⟩ := @List.mem_enum _ q.2 q.1 _ (by simpa using hq)
      have hgeteq : filenames.get ⟨q.1, hql⟩ = filenames.get ⟨i, hi⟩ := by
        rw [show filenames.get ⟨q.1, hql⟩ = filenames[q.1] from rfl, ← hqv,
          hqsnd, hpk]
      have hqi : q.1 = i := by
        have := (List.Nodup.get_inj_iff hnd).mp hgeteq
        exact congrArg Fin.val this
      rw [hqi, hA] at hg
      cases hg
  · intro f0 f1 f2 A C
    rw [parse_batch_response_dict]
    simp [reconcile_indices, List.enum, List.enumFrom, getVal?, h0, h1, h2]
  · intro hne
    show parseLoop ParsedJson.jscalar filenames.enum = Except.error "TypeError"
    rcases he : filenames.enum with _ | ⟨q, rest⟩
    · exact absurd (List.length_eq_zero.mp
        (by rw [← List.enum_length, he]; rfl)) hne
    · exact parseLoop_scalar q rest
  · intro elems
    have hchar := parseLoop_raises (ParsedJson.jlist elems)
      (fun k => elems.contains k) (fun _ => rfl) (fun _ => rfl)
      filenames.enum
    constructor
    · intro hex
      show parseLoop (ParsedJson.jlist elems) filenames.enum = _
      rw [hchar, if_pos]
      exact (enum_any_iff (fun i => elems.contains (toString i))
        filenames).mpr hex
    · intro hall
      show parseLoop (ParsedJson.jlist elems) filenames.enum = _
      rw [hchar, if_neg]
      intro hany
      obtain ⟨i, hi, hf⟩ := (enum_any_iff
        (fun i => elems.contains (toString i)) filenames).mp hany
      rw [hall i hi] at hf
      exact Bool.noConfusion hf
  · intro s
    have hchar := parseLoop_raises (ParsedJson.jstr s)
      (fun k => hasSubstr k.data s.data) (fun _ => rfl) (fun _ => rfl)
      filenames.enum
    constructor
    · intro hex
      show parseLoop (ParsedJson.jstr s) filenames.enum = _
      rw [hchar, if_pos]
      exact (enum_any_iff (fun i => hasSubstr (toString i).data s.data)
        filenames).mpr hex
    · intro hall
      show parseLoop (ParsedJson.jstr s) filenames.enum = _
      rw [hchar, if_neg]
      intro hany
      obtain ⟨i, hi, hf⟩ := (enum_any_iff
        (fun i => hasSubstr (toString i).data s.data) filenames).mp hany
      rw [hall i hi] at hf
      exact Bool.noConfusion hf

/-- C5: if a persisted artifact exists, `process_zip_file` returns it
directly with zero model calls and no pipeline work; otherwise the
full pipeline runs once, is persisted exactly once, and a second call
against the now-persisted artifact returns the identical mapping with
zero model calls, leaving the artifact unchanged. -/
theorem cache_short_circuit_idempotence
    (tp tp2 : String → String) (cv ci cv2 ci2 : ℕ → ModelCall)
    (archive archive2 : List ArchiveFile) :
    (∀ m, process_zip_file (some m) tp cv ci archive = (m, some m, 0)) ∧
    (process_zip_file none tp cv ci archive).1 =
      process_zip_pipeline tp cv ci archive ∧
    (process_zip_file none tp cv ci archive).2.1 =
      some (process_zip_file none tp cv ci archive).1 ∧
    (process_zip_file none tp cv ci archive).2.2 =
      pipelineModelCalls tp archive ∧
    (process_zip_file ((process_zip_file none tp cv ci archive).2.1)
        tp2 cv2 ci2 archive2).1 = (process_zip_file none tp cv ci archive).1 ∧
    (process_zip_file ((process_zip_file none tp cv ci archive).2.1)
        tp2 cv2 ci2 archive2).2.2 = 0 ∧
    (process_zip_file ((process_zip_file none tp cv ci archive).2.1)
        tp2 cv2 ci2 archive2).2.1 =
      (process_zip_file none tp cv ci archive).2.1 :=
  ⟨fun m => rfl, rfl, rfl, rfl, rfl, rfl, rfl⟩

theorem video_max_workers_capBuster (n : ℕ) :
    video_max_workers (capBusterInput n) 1 = n := by
  unfold video_max_workers videoBatches
  rw [chunkList_length]
  have hfilter : (capBusterInput n).filter videoFilter = capBusterInput n := by
    apply List.filter_eq_self.mpr
    intro a ha
    obtain ⟨i, _, hie⟩ := List.mem_map.mp ha
    rw [← hie]
    unfold videoFilter isVideoKey lowerEndsWith
    have hdata : (String.mk (List.replicate i 'a' ++ ".mp4".data)).data =
        List.replicate i 'a' ++ ".mp4".data := rfl
    have hmap : (List.replicate i 'a' ++ ".mp4".data).map Char.toLower =
        List.replicate i 'a' ++ ".mp4".data := by
      rw [List.map_append, List.map_replicate]
      have h1 : Char.toLower 'a' = 'a' := by decide
      have h2 : ".mp4".data.map Char.toLower = ".mp4".data := by decide
      rw [h1, h2]
    have hsuffix : (".mp4".data.isSuffixOf
        (List.replicate i 'a' ++ ".mp4".data)) = true :=
      List.isSuffixOf_iff_suffix.mpr (List.suffix_append _ _)
    simp only [hdata, hmap, hsuffix]
    rfl
  rw [hfilter]
  unfold capBusterInput numBatches
  simp

/-- C6 counterexample: the thread-pool size `max_workers=len(batches)`
is not bounded by any cap independent of the batch count — for every
candidate cap there is an input whose run exceeds it. -/
theorem concurrency_cap_counterexample :
    ¬ ∃ cap : ℕ, ∀ (m : List (String × Record)) (b : ℕ), 1 ≤ b →
        video_max_workers m b ≤ cap := by
  rintro ⟨cap, hcap⟩
  have h := hcap (capBusterInput (cap + 1)) 1 (le_refl 1)
  rw [video_max_workers_capBuster (cap + 1)] at h
  omega

/-- C6 amended: the number of concurrently in-flight batch calls is
bounded only by the thread pool size, which always equals the number of
batches (`max_workers=len(batches)`), for both media kinds; that bound
grows with the batch count — there is no configurable independent cap. -/
theorem concurrency_equals_batch_count :
    (∀ (m : List (String × Record)) (b : ℕ),
        video_max_workers m b =
          numBatches (m.filter videoFilter).length b ∧
        image_max_workers m b =
          numBatches (m.filter imageFilter).length b) ∧
    (∀ cap : ℕ, ∃ m : List (String × Record), cap < video_max_workers m 1) := by
  constructor
  · intro m b
    constructor
    · unfold video_max_workers videoBatches
      exact chunkList_length b _
    · unfold image_max_workers imageBatches
      exact chunkList_length b _
  · intro cap
    refine ⟨capBusterInput (cap + 1), ?_⟩
    rw [video_max_workers_capBuster (cap + 1)]
    omega

theorem chunkList_map {α β : Type} (f : α → β) (b : ℕ) (l : List α) :
    (chunkList b l).map (List.map f) = chunkList b (l.map f) := by
  unfold chunkList
  simp only [List.map_map, List.length_map]
  apply List.map_congr_left
  intro i _
  simp [List.map_take, List.map_drop]

/-- C1 counterexample: a `.mp4` record with no `error` field but no
`_temp_file_path` key matches the claim's filter (so the claim demands
`⌈1/1⌉ = 1` batch whose union contains it), yet `batch_analyze_videos`
filters it out and builds zero batches. -/
theorem partition_claim_counterexample :
    ([(("a.mp4" : String), ([] : Record))].filter
        (specKindFilter isVideoKey)).map Prod.fst = ["a.mp4"] ∧
    videoBatches [(("a.mp4" : String), ([] : Record))] 1 = [] ∧
    numBatches 1 1 = 1 := by
  refine ⟨?_, rfl, rfl⟩
  rfl

/-- C1 amended: with the code's own filters (for videos: `.mp4`, no
`error`, and a `_temp_file_path` key; for images: `.png` and no
`error`), partitioning with `batchSize ≥ 1` yields `⌈n/b⌉` batches;
batch `i` is exactly the slice `[i·b, (i+1)·b)` of the filtered,
stably-ordered list; the batches' filename lists are pairwise disjoint;
their concatenation (union) is exactly the filtered input; and an empty
filtered input yields zero batches rather than an error. -/
theorem partition_correct (m : List (String × Record)) (b : ℕ)
    (hb : 1 ≤ b) (hnd : (m.map Prod.fst).Nodup) :
    ((videoBatches m b).length = numBatches (m.filter videoFilter).length b ∧
     (∀ i, ∀ hi : i < (videoBatches m b).length,
        (videoBatches m b).get ⟨i, hi⟩ =
          ((m.filter videoFilter).drop (i * b)).take b) ∧
     ((videoBatches m b).map (fun c => c.map Prod.fst)).Pairwise
        List.Disjoint ∧
     (videoBatches m b).flatten = m.filter videoFilter ∧
     (m.filter videoFilter = [] → videoBatches m b = [])) ∧
    ((imageBatches m b).length = numBatches (m.filter imageFilter).length b ∧
     (∀ i, ∀ hi : i < (imageBatches m b).length,
        (imageBatches m b).get ⟨i, hi⟩ =
          ((m.filter imageFilter).drop (i * b)).take b) ∧
     ((imageBatches m b).map (fun c => c.map Prod.fst)).Pairwise
        List.Disjoint ∧
     (imageBatches m b).flatten = m.filter imageFilter ∧
     (m.filter imageFilter = [] → imageBatches m b = [])) := by
  have hndv : ((m.filter videoFilter).map Prod.fst).Nodup :=
    List.Nodup.sublist (List.Sublist.map Prod.fst (List.filter_sublist m)) hnd
  have hndi : ((m.filter imageFilter).map Prod.fst).Nodup :=
    List.Nodup.sublist (List.Sublist.map Prod.fst (List.filter_sublist m)) hnd
  constructor
  · refine ⟨chunkList_length b _, fun i hi => chunkList_get b _ i hi, ?_, ?_, ?_⟩
    · unfold videoBatches
      rw [show (fun c : List (String × Record) => c.map Prod.fst)
          = List.map (Prod.fst (β := Record)) from rfl, chunkList_map]
      exact chunkList_disjoint b _ hb hndv
    · exact chunkList_flatten b _ hb
    · intro h
      unfold videoBatches
      rw [h]
      exact chunkList_nil b hb
  · refine ⟨chunkList_length b _, fun i hi => chunkList_get b _ i hi, ?_, ?_, ?_⟩
    · unfold imageBatches
      rw [show (fun c : List (String × Record) => c.map Prod.fst)
          = List.map (Prod.fst (β := Record)) from rfl, chunkList_map]
      exact chunkList_disjoint b _ hb hndi
    · exact chunkList_flatten b _ hb
    · intro h
      unfold imageBatches
      rw [h]
      exact chunkList_nil b hb

/-- Witness for C1's amended theorem at a concrete mapping. -/
theorem partition_correct_witness :
    (videoBatches [(("a.mp4" : String), [("_temp_file_path", Val.str "t")]),
        (("b.png" : String), ([] : Record))] 1).flatten =
      [(("a.mp4" : String), [("_temp_file_path", Val.str "t")]),
        (("b.png" : String), ([] : Record))].filter videoFilter :=
  (partition_correct
    [(("a.mp4" : String), [("_temp_file_path", Val.str "t")]),
      (("b.png" : String), ([] : Record))] 1 (by decide) (by decide)).1.2.2.2.1

/-- Witness for C3's theorem: a concrete four-file run, batch size 1,
in which every model call raises. -/
theorem batch_failure_isolation_witness :
    getVal? (batch_analyze_videos (fun _ _ => Except.error "vboom")
        [(("a.mp4" : String), [("_temp_file_path", Val.str "t")]),
          (("b.mp4" : String), [("_temp_file_path", Val.str "t")]),
          (("c.png" : String), ([] : Record)),
          (("d.png" : String), ([] : Record))] 1) "a.mp4" =
      some (mergeRecords (stripTemp [("_temp_file_path", Val.str "t")])
        [("analysis_error", Val.str "vboom")]) :=
  (batch_failure_isolation (fun _ _ => Except.error "vboom")
    (fun _ _ => Except.error "iboom")
    [(("a.mp4" : String), [("_temp_file_path", Val.str "t")]),
      (("b.mp4" : String), [("_temp_file_path", Val.str "t")]),
      (("c.png" : String), ([] : Record)),
      (("d.png" : String), ([] : Record))] 1 1
    (by decide) (by decide) (by decide) (by decide)
    0 (by decide) (by decide) "vboom" rfl
    0 (by decide) (by decide) "iboom" rfl).1
    ("a.mp4", [("_temp_file_path", Val.str "t")]) (by decide)

/-- Witness for C4's theorem: index key `1` is mapped back to the
second filename, and the scalar-parse response raises `TypeError` on a
concrete nonempty filename list. -/
theorem parse_batch_response_reconciliation_witness :
    getVal? (reconcile_indices (some [("1", ([] : Record))])
      ["x", "y"]) "y" = some [] ∧
    parse_batch_response (some ParsedJson.jscalar) ["x", "y"] =
      Except.error "TypeError" := by
  have h := parse_batch_response_reconciliation [("1", ([] : Record))]
    ["x", "y"] (by decide)
  exact ⟨h.1 1 (by decide) [] rfl, h.2.2.2.2.2.1 (List.cons_ne_nil _ _)⟩

/-! ## Supporting lemmas about the filter loop -/

theorem filterLoop_passes (fs : List (String × Val)) (topK : ℕ) :
    ∀ (pool acc : List SearchResult),
      (∀ r ∈ acc, passes_filters r.analysis fs = true) →
      ∀ r ∈ filterLoop fs topK pool acc,
        passes_filters r.analysis fs = true := by
  intro pool
  induction pool with
  | nil =>
    intro acc hacc r hr
    exact hacc r hr
  | cons x rs ih =>
    intro acc hacc r hr
    unfold filterLoop at hr
    rcases hpass : passes_filters x.analysis fs with _ | _ <;> rw [hpass] at hr
    · simp only [Bool.false_eq_true, if_false] at hr
      split at hr
      · exact hacc r hr
      · exact ih acc hacc r hr
    · simp only [if_true] at hr
      have hacc2 : ∀ r ∈ acc ++ [x], passes_filters r.analysis fs = true := by
        intro r hr2
        rcases List.mem_append.mp hr2 with h | h
        · exact hacc r h
        · rw [List.mem_singleton.mp h]
          exact hpass
      split at hr
      · exact hacc2 r hr
      · exact ih (acc ++ [x]) hacc2 r hr

theorem filterLoop_subset (fs : List (String × Val)) (topK : ℕ) :
    ∀ (pool acc : List SearchResult),
      ∀ r ∈ filterLoop fs topK pool acc, r ∈ acc ∨ r ∈ pool := by
  intro pool
  induction pool with
  | nil =>
    intro acc r hr
    exact Or.inl hr
  | cons x rs ih =>
    intro acc r hr
    unfold filterLoop at hr
    have hstep : ∀ acc2 : List SearchResult,
        (∀ s ∈ acc2, s ∈ acc ∨ s = x) →
        (if topK ≤ acc2.length then acc2
          else filterLoop fs topK rs acc2) = filterLoop fs topK (x :: rs) acc →
        r ∈ filterLoop fs topK (x :: rs) acc → True := fun _ _ _ _ => trivial
    rcases hpass : passes_filters x.analysis fs with _ | _ <;> rw [hpass] at hr
    · simp only [Bool.false_eq_true, if_false] at hr
      split at hr
      · exact Or.inl hr
      · rcases ih acc r hr with h | h
        · exact Or.inl h
        · exact Or.inr (List.mem_cons_of_mem x h)
    · simp only [if_true] at hr
      split at hr
      · rcases List.mem_append.mp hr with h | h
        · exact Or.inl h
        · exact Or.inr (List.mem_cons.mpr (Or.inl (List.mem_singleton.mp h)))
      · rcases ih (acc ++ [x]) r hr with h | h
        · rcases List.mem_append.mp h with h2 | h2
          · exact Or.inl h2
          · exact Or.inr (List.mem_cons.mpr (Or.inl (List.mem_singleton.mp h2)))
        · exact Or.inr (List.mem_cons_of_mem x h)

theorem filterLoop_length (fs : List (String × Val)) (topK : ℕ) :
    ∀ (pool acc : List SearchResult),
      (filterLoop fs topK pool acc).length ≤ acc.length + pool.length := by
  intro pool
  induction pool with
  | nil =>
    intro acc
    simp [filterLoop]
  | cons x rs ih =>
    intro acc
    unfold filterLoop
    rcases hpass : passes_filters x.analysis fs with _ | _
    · simp only [Bool.false_eq_true, if_false]
      split
      · simp
      · have := ih acc
        simp only [List.length_cons]
        omega
    · simp only [if_true]
      split
      · simp
      · have := ih (acc ++ [x])
        have hlen : (acc ++ [x]).length = acc.length + 1 := by simp
        simp only [List.length_cons]
        omega

/-- C8: every result of `search_with_filters` satisfies all filters
(in particular `{min_luxury_index: q}` excludes every record whose
`luxury_index` is below `q`, whatever its similarity), candidates are
drawn only from the 50-entry pre-ranked pool produced by
`search(query, top_k=50)` rather than the full corpus, and the result
is bounded by the pool's size, so fewer than `topK` results can come
back when the pool is exhausted. -/
theorem search_with_filters_correct (corpus : List SearchResult)
    (sim : SearchResult → ℚ) (fs : List (String × Val)) (topK : ℕ) :
    (∀ r ∈ search_with_filters corpus sim (some fs) topK,
        passes_filters r.analysis fs = true ∧ r ∈ search corpus sim 50 none) ∧
    (search_with_filters corpus sim (some fs) topK).length ≤
      (search corpus sim 50 none).length ∧
    (search corpus sim 50 none).length ≤ 50 ∧
    (∀ q : ℚ, ∀ r ∈ search_with_filters corpus sim
        (some [("min_luxury_index", Val.num q)]) topK,
        q ≤ numValD r.analysis "luxury_index") := by
  have hpool_le : (search corpus sim 50 none).length ≤ 50 := by
    unfold search
    rw [List.length_take]
    exact min_le_left _ _
  have hmain : ∀ fs' : List (String × Val),
      (∀ r ∈ search_with_filters corpus sim (some fs') topK,
        passes_filters r.analysis fs' = true ∧
          r ∈ search corpus sim 50 none) ∧
      (search_with_filters corpus sim (some fs') topK).length ≤
        (search corpus sim 50 none).length := by
    intro fs'
    simp only [search_with_filters]
    rcases he : fs'.isEmpty with _ | _
    · simp only [Bool.false_eq_true, if_false]
      constructor
      · intro r hr
        refine ⟨filterLoop_passes fs' topK _ [] (by intro r h; cases h) r hr, ?_⟩
        rcases filterLoop_subset fs' topK _ [] r hr with h | h
        · cases h
        · exact h
      · have := filterLoop_length fs' topK (search corpus sim 50 none) []
        simpa using this
    · simp only [if_true]
      have hfs : fs' = [] := List.isEmpty_iff.mp he
      constructor
      · intro r hr
        subst hfs
        exact ⟨rfl, List.mem_of_mem_take hr⟩
      · rw [List.length_take]
        exact min_le_right _ _
  refine ⟨(hmain fs).1, (hmain fs).2, hpool_le, ?_⟩
  intro q r hr
  have hp := ((hmain [("min_luxury_index", Val.num q)]).1 r hr).1
  unfold passes_filters at hp
  simp only [List.all_cons, List.all_nil, Bool.and_true] at hp
  unfold passesOne at hp
  rw [show ("min_".data.isPrefixOf "min_luxury_index".data) = true from by
    decide] at hp
  simp only [if_true] at hp
  rw [show String.mk ("min_luxury_index".data.drop 4) = "luxury_index" from by
    decide] at hp
  simp only [valAsNum, Bool.not_eq_eq_eq_not, Bool.not_true,
    decide_eq_false_iff_not, not_lt] at hp
  exact hp

/-- C9 counterexample: a record lacking `luxury_index` is rejected by
the filter `{max_luxury_index: -1}` (its defaulted value 0 exceeds the
negative threshold), so it does not pass every `max_X` filter. -/
theorem missing_field_counterexample :
    search_with_filters [⟨"a.png", []⟩] (fun _ => 1)
      (some [("max_luxury_index", Val.num (-1))]) 1 = [] := by
  simp only [search_with_filters, search, List.filter_cons, List.filter_nil,
    if_true, List.mergeSort_singleton, List.isEmpty_cons]
  rfl

/-- C9 amended: in `search_with_filters`, a candidate lacking the field
named by a numeric filter is treated as having value 0 — never rejected
outright and never an error: it passes a `max_X` filter exactly when the
threshold is ≥ 0 (so every non-negative `max_X` filter passes, but a
negative-threshold one fails) and passes a `min_X` filter exactly when
the threshold is ≤ 0 (so every `min_X` filter with threshold > 0
fails). -/
theorem missing_field_defaults_to_zero (data : Record) (name : String)
    (t : ℚ) (habs : getVal? data name = none) :
    (∀ key : String, key.data = "max_".data ++ name.data →
        passesOne data key (Val.num t) = decide (0 ≤ t)) ∧
    (∀ key : String, key.data = "min_".data ++ name.data →
        passesOne data key (Val.num t) = decide (t ≤ 0)) := by
  have hnum : ∀ key : String, key.data.drop 4 = name.data →
      numValD data (String.mk (key.data.drop 4)) = 0 := by
    intro key hkey
    rw [hkey]
    have : String.mk name.data = name := rfl
    rw [this]
    unfold numValD
    rw [habs]
  constructor
  · intro key hkey
    unfold passesOne
    have hnotmin : ("min_".data.isPrefixOf key.data) = false := by
      rcases h : ("min_".data.isPrefixOf key.data) with _ | _
      · rfl
      · exfalso
        have hpre := List.isPrefixOf_iff_prefix.mp h
        have := List.prefix_iff_eq_take.mp hpre
        rw [hkey] at this
        rw [show ("min_".data.length : ℕ) = 4 from by decide] at this
        rw [show List.take 4 ("max_".data ++ name.data) = "max_".data from by
          rw [show (4 : ℕ) = "max_".data.length from by decide]
          exact List.take_left _ _] at this
        exact absurd this (by decide)
    have hmax : ("max_".data.isPrefixOf key.data) = true := by
      apply List.isPrefixOf_iff_prefix.mpr
      rw [hkey]
      exact ⟨name.data, rfl⟩
    rw [hnotmin]
    simp only [Bool.false_eq_true, if_false]
    rw [hmax]
    simp only [if_true]
    have hdrop : key.data.drop 4 = name.data := by
      rw [hkey, show (4 : ℕ) = "max_".data.length from by decide]
      exact List.drop_left _ _
    rw [hnum key hdrop]
    unfold valAsNum
    by_cases h : (0 : ℚ) ≤ t
    · rw [decide_eq_true h]
      simp [not_lt.mpr h]
    · rw [decide_eq_false h]
      have : t < 0 := lt_of_not_ge h
      simp [this]
  · intro key hkey
    unfold passesOne
    have hmin : ("min_".data.isPrefixOf key.data) = true := by
      apply List.isPrefixOf_iff_prefix.mpr
      rw [hkey]
      exact ⟨name.data, rfl⟩
    rw [hmin]
    simp only [if_true]
    have hdrop : key.data.drop 4 = name.data := by
      rw [hkey, show (4 : ℕ) = "min_".data.length from by decide]
      exact List.drop_left _ _
    rw [hnum key hdrop]
    unfold valAsNum
    by_cases h : t ≤ 0
    · rw [decide_eq_true h]
      simp [not_lt.mpr h]
    · rw [decide_eq_false h]
      have : (0 : ℚ) < t := lt_of_not_ge h
      simp [this]

/-- Witness for C8's theorem at a concrete corpus. -/
theorem search_with_filters_correct_witness :
    (search [⟨"a.png", ([] : Record)⟩] (fun _ => 1) 50 none).length ≤ 50 :=
  (search_with_filters_correct [⟨"a.png", ([] : Record)⟩] (fun _ => 1)
    [] 1).2.2.1

/-- Witness for C9's amended theorem: the missing `luxury_index` of an
empty record passes `max_luxury_index: 1`. -/
theorem missing_field_defaults_to_zero_witness :
    passesOne [] "max_luxury_index" (Val.num 1) = decide ((0 : ℚ) ≤ 1) :=
  (missing_field_defaults_to_zero [] "luxury_index" 1 rfl).1
    "max_luxury_index" (by decide)

theorem phrases_not_fixed : ∀ c ∈ indicesConfig, ∀ s ∈ fixedPhrases,
    c.2.1 ≠ s ∧ c.2.2 ≠ s := by decide

theorem phrases_inj : ∀ c ∈ indicesConfig, ∀ c2 ∈ indicesConfig,
    (c.2.1 = c2.2.1 → c.1 = c2.1) ∧ (c.2.2 = c2.2.2 → c.1 = c2.1) ∧
    c.2.1 ≠ c2.2.2 := by decide

theorem phrases_no_demo_suffix : ∀ c ∈ indicesConfig,
    (" audience".data.isSuffixOf c.2.1.data) = false ∧
    (" audience".data.isSuffixOf c.2.2.data) = false ∧
    (" demographic".data.isSuffixOf c.2.1.data) = false ∧
    (" demographic".data.isSuffixOf c.2.2.data) = false := by decide

theorem activityParts_sub (d : Record) :
    ∀ s ∈ activityParts d, s ∈ fixedPhrases := by
  intro s hs
  unfold activityParts at hs
  split_ifs at hs
  · rw [List.mem_singleton.mp hs]
    decide
  · rw [List.mem_singleton.mp hs]
    decide
  · cases hs

theorem musicParts_sub (d : Record) :
    ∀ s ∈ musicParts d, s ∈ fixedPhrases := by
  intro s hs
  unfold musicParts at hs
  split_ifs at hs <;> rw [List.mem_singleton.mp hs] <;> decide

theorem sceneCutsParts_sub (d : Record) :
    ∀ s ∈ sceneCutsParts d, s ∈ fixedPhrases := by
  intro s hs
  unfold sceneCutsParts at hs
  split_ifs at hs <;> rw [List.mem_singleton.mp hs] <;> decide

theorem visibilityParts_sub (d : Record) :
    ∀ s ∈ visibilityParts d, s ∈ fixedPhrases := by
  intro s hs
  unfold visibilityParts at hs
  split_ifs at hs
  · rw [List.mem_singleton.mp hs]
    decide
  · rw [List.mem_singleton.mp hs]
    decide
  · rw [List.mem_singleton.mp hs]
    decide
  · cases hs

theorem urgencyParts_sub (d : Record) :
    ∀ s ∈ urgencyParts d, s ∈ fixedPhrases := by
  intro s hs
  unfold urgencyParts at hs
  split_ifs at hs
  · rw [List.mem_singleton.mp hs]
    decide
  · rw [List.mem_singleton.mp hs]
    decide
  · rw [List.mem_singleton.mp hs]
    decide
  · cases hs

theorem messageParts_sub (d : Record) :
    ∀ s ∈ messageParts d, s ∈ fixedPhrases := by
  intro s hs
  unfold messageParts at hs
  rcases hg : getVal? d "message_types" with _ | v
  · rw [hg] at hs
    cases hs
  · rw [hg] at hs
    cases v with
    | num q => cases hs
    | str t => cases hs
    | vbool bo => cases hs
    | arr xs =>
      obtain ⟨x, _, hx⟩ := List.mem_flatMap.mp hs
      unfold msgPhrase at hx
      split_ifs at hx
      · rw [List.mem_singleton.mp hx]
        decide
      · rw [List.mem_singleton.mp hx]
        decide
      · rw [List.mem_singleton.mp hx]
        decide
      · rw [List.mem_singleton.mp hx]
        decide
      · rw [List.mem_singleton.mp hx]
        decide
      · cases hx

theorem ageParts_shape {d : Record} {s : String} (h : s ∈ ageParts d) :
    ∃ a : String, s = (a ++ " demographic " ++ a) ++ " audience" := by
  unfold ageParts at h
  rcases hg : getVal? d "age_demographic" with _ | v
  · rw [hg] at h
    cases h
  · rw [hg] at h
    cases v with
    | num q => cases h
    | vbool bo => cases h
    | arr xs => cases h
    | str t =>
      have h2 : s ∈ (if t ≠ "" ∧ t ≠ "N/A" then
          [(t ++ " demographic " ++ t) ++ " audience"] else []) := h
      split_ifs at h2
      · exact ⟨t, List.mem_singleton.mp h2⟩
      · cases h2

theorem genderParts_shape {d : Record} {s : String} (h : s ∈ genderParts d) :
    ∃ a : String, s = (a ++ " audience " ++ a) ++ " demographic" := by
  unfold genderParts at h
  rcases hg : getVal? d "gender_demographic" with _ | v
  · rw [hg] at h
    cases h
  · rw [hg] at h
    cases v with
    | num q => cases h
    | vbool bo => cases h
    | arr xs => cases h
    | str t =>
      have h2 : s ∈ (if t ≠ "" ∧ t ≠ "N/A" then
          [(t ++ " audience " ++ t) ++ " demographic"] else []) := h
      split_ifs at h2
      · exact ⟨t, List.mem_singleton.mp h2⟩
      · cases h2

/-- An age-demographic part always ends in `" audience"`, which no
index phrase does. -/
theorem age_part_ne_phrase (a ph : String)
    (h : (" audience".data.isSuffixOf ph.data) = false) :
    (a ++ " demographic " ++ a) ++ " audience" ≠ ph := by
  intro he
  have hsuf : (" audience".data.isSuffixOf ph.data) = true := by
    apply List.isSuffixOf_iff_suffix.mpr
    rw [← he, String.data_append]
    exact List.suffix_append _ _
  rw [h] at hsuf
  cases hsuf

/-- A gender-demographic part always ends in `" demographic"`, which no
index phrase does. -/
theorem gender_part_ne_phrase (a ph : String)
    (h : (" demographic".data.isSuffixOf ph.data) = false) :
    (a ++ " audience " ++ a) ++ " demographic" ≠ ph := by
  intro he
  have hsuf : (" demographic".data.isSuffixOf ph.data) = true := by
    apply List.isSuffixOf_iff_suffix.mpr
    rw [← he, String.data_append]
    exact List.suffix_append _ _
  rw [h] at hsuf
  cases hsuf

theorem mem_indexParts {d : Record} {s : String} :
    s ∈ indexParts d ↔ ∃ c ∈ indicesConfig,
      ((0.6 : ℚ) ≤ numValD d c.1 ∧ s = c.2.1) ∨
      (¬((0.6 : ℚ) ≤ numValD d c.1) ∧ (0.2 : ℚ) ≤ numValD d c.1 ∧
        s = c.2.2) := by
  unfold indexParts
  rw [List.mem_flatMap]
  constructor
  · rintro ⟨c, hc, hs⟩
    refine ⟨c, hc, ?_⟩
    split_ifs at hs with h1 h2
    · exact Or.inl ⟨h1, List.mem_singleton.mp hs⟩
    · exact Or.inr ⟨h1, h2, List.mem_singleton.mp hs⟩
    · cases hs
  · rintro ⟨c, hc, h | h⟩
    · exact ⟨c, hc, by rw [if_pos h.1]; exact List.mem_singleton.mpr h.2⟩
    · exact ⟨c, hc, by
        rw [if_neg h.1, if_pos h.2.1]
        exact List.mem_singleton.mpr h.2.2⟩

theorem mem_textParts_cases {d : Record} {s : String} (h : s ∈ textParts d) :
    s ∈ activityParts d ∨ s ∈ musicParts d ∨ s ∈ sceneCutsParts d ∨
    s ∈ indexParts d ∨ s ∈ ageParts d ∨ s ∈ genderParts d ∨
    s ∈ visibilityParts d ∨ s ∈ urgencyParts d ∨ s ∈ messageParts d := by
  unfold textParts at h
  simp only [List.mem_append] at h
  tauto

theorem indexParts_sub_textParts {d : Record} {s : String}
    (h : s ∈ indexParts d) : s ∈ textParts d := by
  unfold textParts
  simp only [List.mem_append]
  tauto

/-- An index phrase (strong or weak) occurring anywhere in `text_parts`
can only have been contributed by the index loop. -/
theorem phrase_mem_iff_indexParts {d : Record}
    {c : String × String × String} (hc : c ∈ indicesConfig)
    {s : String} (hs : s = c.2.1 ∨ s = c.2.2) :
    s ∈ textParts d ↔ s ∈ indexParts d := by
  constructor
  · intro h
    have hnotfixed : s ∉ fixedPhrases := by
      intro hmem
      rcases hs with h1 | h1
      · exact (phrases_not_fixed c hc s hmem).1 h1.symm
      · exact (phrases_not_fixed c hc s hmem).2 h1.symm
    have hnotage : s ∉ ageParts d := by
      intro hmem
      obtain ⟨a, ha⟩ := ageParts_shape hmem
      rcases hs with h1 | h1
      · exact age_part_ne_phrase a c.2.1
          (phrases_no_demo_suffix c hc).1 (ha.symm.trans h1)
      · exact age_part_ne_phrase a c.2.2
          (phrases_no_demo_suffix c hc).2.1 (ha.symm.trans h1)
    have hnotgender : s ∉ genderParts d := by
      intro hmem
      obtain ⟨a, ha⟩ := genderParts_shape hmem
      rcases hs with h1 | h1
      · exact gender_part_ne_phrase a c.2.1
          (phrases_no_demo_suffix c hc).2.2.1 (ha.symm.trans h1)
      · exact gender_part_ne_phrase a c.2.2
          (phrases_no_demo_suffix c hc).2.2.2 (ha.symm.trans h1)
    rcases mem_textParts_cases h with h' | h' | h' | h' | h' | h' | h' | h' | h'
    · exact absurd (activityParts_sub d s h') hnotfixed
    · exact absurd (musicParts_sub d s h') hnotfixed
    · exact absurd (sceneCutsParts_sub d s h') hnotfixed
    · exact h'
    · exact absurd h' hnotage
    · exact absurd h' hnotgender
    · exact absurd (visibilityParts_sub d s h') hnotfixed
    · exact absurd (urgencyParts_sub d s h') hnotfixed
    · exact absurd (messageParts_sub d s h') hnotfixed
  · exact indexParts_sub_textParts

/-- C7: `create_embedding_text` is a pure function of the analysis
record (identical input gives identical projected text, hence identical
embedding input), and for every scored emotional index field of
`indices_config` the projected text's parts contain the field's strong
phrase exactly when its value is `≥ 0.6`, its weak phrase exactly when
the value is in `[0.2, 0.6)`, and neither phrase when the value is
below `0.2`. -/
theorem create_embedding_text_projection (d : Record)
    (c : String × String × String) (hc : c ∈ indicesConfig) :
    create_embedding_text d = " ".intercalate (textParts d) ∧
    (∀ d2 : Record, d2 = d →
      create_embedding_text d2 = create_embedding_text d) ∧
    (c.2.1 ∈ textParts d ↔ (0.6 : ℚ) ≤ numValD d c.1) ∧
    (c.2.2 ∈ textParts d ↔
      ((0.2 : ℚ) ≤ numValD d c.1 ∧ numValD d c.1 < 0.6)) ∧
    (numValD d c.1 < 0.2 → c.2.1 ∉ textParts d ∧ c.2.2 ∉ textParts d) := by
  have hstrong : c.2.1 ∈ textParts d ↔ (0.6 : ℚ) ≤ numValD d c.1 := by
    rw [phrase_mem_iff_indexParts hc (Or.inl rfl), mem_indexParts]
    constructor
    · rintro ⟨c', hc', h | h⟩
      · have heq : c.1 = c'.1 := (phrases_inj c hc c' hc').1 h.2
        rw [heq]
        exact h.1
      · exact absurd h.2.2 (phrases_inj c hc c' hc').2.2
    · intro h
      exact ⟨c, hc, Or.inl ⟨h, rfl⟩⟩
  have hweak : c.2.2 ∈ textParts d ↔
      ((0.2 : ℚ) ≤ numValD d c.1 ∧ numValD d c.1 < 0.6) := by
    rw [phrase_mem_iff_indexParts hc (Or.inr rfl), mem_indexParts]
    constructor
    · rintro ⟨c', hc', h | h⟩
      · exact absurd h.2.symm (phrases_inj c' hc' c hc).2.2
      · have heq : c.1 = c'.1 := (phrases_inj c hc c' hc').2.1 h.2.2
        rw [heq]
        exact ⟨h.2.1, lt_of_not_ge h.1⟩
    · rintro ⟨h1, h2⟩
      exact ⟨c, hc, Or.inr ⟨not_le.mpr h2, h1, rfl⟩⟩
  refine ⟨rfl, fun d2 h => by rw [h], hstrong, hweak, ?_⟩
  intro hlt
  constructor
  · rw [hstrong]
    intro h
    have : (0.2 : ℚ) < 0.6 := by norm_num
    linarith
  · rw [hweak]
    rintro ⟨h1, _⟩
    linarith

/-- Witness for C7's theorem: a record with `luxury_index = 0.7`
contributes the strong luxury phrase. -/
theorem create_embedding_text_projection_witness :
    "luxury luxury luxury expensive expensive premium high-end wealthy exclusive elite sophisticated upscale"
      ∈ textParts [("luxury_index", Val.num (7/10))] :=
  (create_embedding_text_projection [("luxury_index", Val.num (7/10))]
    ("luxury_index",
     "luxury luxury luxury expensive expensive premium high-end wealthy exclusive elite sophisticated upscale",
     "somewhat luxury expensive premium") (by decide)).2.2.1.mpr (by
    show (0.6 : ℚ) ≤ numValD [("luxury_index", Val.num (7/10))] "luxury_index"
    unfold numValD getVal?
    norm_num)

/-! ## Supporting lemmas about the pipeline merge -/

theorem hasKey_insertRecord {β : Type} (m : List (String × β))
    (k k' : String) (v : β) :
    hasKey (insertRecord m k v) k' =
      (if k' = k then true else hasKey m k') := by
  rw [hasKey_eq_isSome, getVal?_insertRecord]
  by_cases h : k' = k
  · simp [h]
  · simp only [if_neg h]
    exact (hasKey_eq_isSome m k').symm

theorem foldl_insert_append {β : Type} :
    ∀ (l acc : List (String × β)),
      (∀ p ∈ l, hasKey acc p.1 = false) → (l.map Prod.fst).Nodup →
      l.foldl (fun a p => insertRecord a p.1 p.2) acc = acc ++ l := by
  intro l
  induction l with
  | nil =>
    intro acc _ _
    simp
  | cons q rest ih =>
    intro acc hacc hnd
    rw [List.map_cons, List.nodup_cons] at hnd
    have hq : hasKey acc q.1 = false := hacc q (List.mem_cons_self q rest)
    have hins : insertRecord acc q.1 q.2 = acc ++ [q] := by
      unfold insertRecord
      rw [hq]
      rfl
    rw [List.foldl_cons, hins, ih (acc ++ [q]) ?_ hnd.2]
    · rw [List.append_assoc]
      rfl
    · intro p hp
      rw [hasKey_append]
      have h1 : hasKey acc p.1 = false := hacc p (List.mem_cons_of_mem q hp)
      have h2 : hasKey [q] p.1 = false := by
        rw [hasKey_false_iff]
        intro x hx he
        rw [List.mem_singleton.mp hx] at he
        exact hnd.1 (he ▸ List.mem_map_of_mem Prod.fst hp)
      rw [h1, h2]
      rfl

theorem foldl_match_filterMap {α β : Type} (g : α → Option (String × β)) :
    ∀ (l : List α) (acc : List (String × β)),
      l.foldl (fun a x => insertStep a (g x)) acc =
      (l.filterMap g).foldl (fun a p => insertRecord a p.1 p.2) acc := by
  intro l
  induction l with
  | nil =>
    intro acc
    rfl
  | cons x rest ih =>
    intro acc
    rw [List.foldl_cons, List.filterMap_cons]
    rcases hg : g x with _ | p
    · exact ih acc
    · exact ih (insertRecord acc p.1 p.2)

theorem getVal?_foldl_insert {β : Type} :
    ∀ (l acc : List (String × β)) (k : String), (l.map Prod.fst).Nodup →
      getVal? (l.foldl (fun a p => insertRecord a p.1 p.2) acc) k =
        (getVal? l k).or (getVal? acc k) := by
  intro l
  induction l with
  | nil =>
    intro acc k _
    simp [getVal?]
  | cons q rest ih =>
    intro acc k hnd
    rw [List.map_cons, List.nodup_cons] at hnd
    rw [List.foldl_cons, ih (insertRecord acc q.1 q.2) k hnd.2,
      getVal?_insertRecord]
    by_cases h : k = q.1
    · have hrest : getVal? rest k = none := by
        apply getVal?_eq_none
        intro p hp he
        have hpq : p.1 = q.1 := he.trans h
        exact hnd.1 (hpq ▸ List.mem_map_of_mem Prod.fst hp)
      rw [hrest, if_pos h]
      have hcons : getVal? (q :: rest) k = some q.2 := by
        unfold getVal?
        rw [List.find?_cons, show (q.1 == k) = true from by simp [h]]
        rfl
      rw [hcons]
      rfl
    · rw [if_neg h]
      have hcons : getVal? (q :: rest) k = getVal? rest k := by
        unfold getVal?
        rw [List.find?_cons, show (q.1 == k) = false from by
          simp only [beq_eq_false_iff_ne, ne_eq]
          exact fun he => h he.symm]
      rw [hcons]

theorem map_fst_foldl_insert {β : Type} :
    ∀ (l acc : List (String × β)),
      (∀ p ∈ l, hasKey acc p.1 = true) →
      (l.foldl (fun a p => insertRecord a p.1 p.2) acc).map Prod.fst =
        acc.map Prod.fst := by
  intro l
  induction l with
  | nil =>
    intro acc _
    rfl
  | cons q rest ih =>
    intro acc hacc
    rw [List.foldl_cons, ih (insertRecord acc q.1 q.2) ?_]
    · rw [map_fst_insertRecord, if_pos (hacc q (List.mem_cons_self q rest))]
    · intro p hp
      rw [hasKey_insertRecord]
      by_cases h : p.1 = q.1
      · rw [if_pos h]
      · rw [if_neg h]
        exact hacc p (List.mem_cons_of_mem q hp)

theorem preStep_name (tp : String → String) (f : ArchiveFile)
    (p : String × Record) (h : preStep tp f = some p) : p.1 = f.name := by
  unfold preStep at h
  split_ifs at h
  · cases h
    rfl

theorem filterMap_preStep_keys (tp : String → String)
    (archive : List ArchiveFile) :
    ((archive.filterMap (preStep tp)).map Prod.fst).Sublist
      (archive.map ArchiveFile.name) := by
  induction archive with
  | nil => exact List.Sublist.refl _
  | cons f rest ih =>
    rw [List.filterMap_cons, List.map_cons]
    rcases hg : preStep tp f with _ | p
    · exact ih.cons _
    · rw [List.map_cons, preStep_name tp f p hg]
      exact ih.cons₂ _

theorem preprocessArchive_eq (tp : String → String)
    (archive : List ArchiveFile)
    (hnd : (archive.map ArchiveFile.name).Nodup) :
    preprocessArchive tp archive = archive.filterMap (preStep tp) := by
  unfold preprocessArchive
  rw [foldl_match_filterMap (preStep tp) archive []]
  rw [foldl_insert_append _ [] (fun p _ => rfl)
    (List.Nodup.sublist (filterMap_preStep_keys tp archive) hnd)]
  rfl

theorem preprocess_keys_nodup (tp : String → String)
    (archive : List ArchiveFile)
    (hnd : (archive.map ArchiveFile.name).Nodup) :
    ((preprocessArchive tp archive).map Prod.fst).Nodup := by
  rw [preprocessArchive_eq tp archive hnd]
  exact List.Nodup.sublist (filterMap_preStep_keys tp archive) hnd

theorem getVal?_preprocess (tp : String → String)
    (archive : List ArchiveFile)
    (hnd : (archive.map ArchiveFile.name).Nodup)
    (f : ArchiveFile) (hf : f ∈ archive) (hsk : skipName f.name = false)
    (hsup : (isImageKey f.name || isVideoKey f.name) = true) :
    getVal? (preprocessArchive tp archive) f.name =
      some (preRecordOf tp f) := by
  apply getVal?_eq_some_of_mem (preprocess_keys_nodup tp archive hnd)
  rw [preprocessArchive_eq tp archive hnd]
  apply List.mem_filterMap.mpr
  refine ⟨f, hf, ?_⟩
  unfold preStep
  rw [if_neg (by rw [hsk]; exact fun h => Bool.false_ne_true h),
    if_pos hsup]

theorem not_image_and_video (k : String) :
    ¬(isImageKey k = true ∧ isVideoKey k = true) := by
  rintro ⟨hi, hv⟩
  simp only [isImageKey, isVideoKey, lowerEndsWith] at hi hv
  obtain ⟨t1, ht1⟩ := List.isSuffixOf_iff_suffix.mp hi
  obtain ⟨t2, ht2⟩ := List.isSuffixOf_iff_suffix.mp hv
  have hlen : t1.length = t2.length := by
    have hl := congrArg List.length (ht1.trans ht2.symm)
    rw [List.length_append, List.length_append] at hl
    have h4 : (['.', 'p', 'n', 'g'] : List Char).length = 4 := rfl
    have h4' : (['.', 'm', 'p', '4'] : List Char).length = 4 := rfl
    have h5 : (".png".data.length : ℕ) = 4 := by decide
    have h5' : (".mp4".data.length : ℕ) = 4 := by decide
    omega
  have := (List.append_inj (ht1.trans ht2.symm) hlen).2
  exact absurd this (by decide)

theorem hasKey_eq_any_keys {β : Type} (m : List (String × β)) (k : String) :
    hasKey m k = (m.map Prod.fst).any (fun s => s == k) := by
  induction m with
  | nil => rfl
  | cons q rest ih =>
    simp only [hasKey, List.any_cons, List.map_cons] at ih ⊢
    rw [ih]

theorem hasKey_keys_congr {β γ : Type} {m : List (String × β)}
    {m' : List (String × γ)} (h : m.map Prod.fst = m'.map Prod.fst)
    (k : String) : hasKey m k = hasKey m' k := by
  rw [hasKey_eq_any_keys, hasKey_eq_any_keys, h]

theorem imageResultsOf_keys (tp : String → String) (ci : ℕ → ModelCall)
    (archive : List ArchiveFile) :
    (imageResultsOf tp ci archive).map Prod.fst =
      (if 0 < ((preprocessArchive tp archive).filter imageFilter).length
       then ((preprocessArchive tp archive).filter imageFilter).map Prod.fst
       else []) := by
  unfold imageResultsOf
  split_ifs with h
  · exact map_fst_batch_analyze_images _ _ _ (le_max_left 1 _)
  · rfl

theorem videoResultsOf_keys (tp : String → String) (cv : ℕ → ModelCall)
    (archive : List ArchiveFile) :
    (videoResultsOf tp cv archive).map Prod.fst =
      (if 0 < ((preprocessArchive tp archive).filter videoGateFilter).length
       then ((preprocessArchive tp archive).filter videoFilter).map Prod.fst
       else []) := by
  unfold videoResultsOf
  split_ifs with h
  · exact map_fst_batch_analyze_videos _ _ _ (by norm_num)
  · rfl

theorem mem_imageResultsOf {tp : String → String} {ci : ℕ → ModelCall}
    {archive : List ArchiveFile} {fn : String} {v : Record}
    (hmem : (fn, v) ∈ imageResultsOf tp ci archive) :
    ∃ p ∈ (preprocessArchive tp archive).filter imageFilter, p.1 = fn ∧
      ((∃ e, v = mergeRecords p.2 [("analysis_error", Val.str e)]) ∨
       (∃ j fns blob k a, ci j fns = Except.ok (some blob) ∧ (k, a) ∈ blob ∧
          v = mergeRecords p.2 a)) := by
  unfold imageResultsOf at hmem
  split_ifs at hmem with h
  · exact mem_batch_analyze_images (le_max_left 1 _) hmem
  · cases hmem

theorem mem_videoResultsOf {tp : String → String} {cv : ℕ → ModelCall}
    {archive : List ArchiveFile} {fn : String} {v : Record}
    (hmem : (fn, v) ∈ videoResultsOf tp cv archive) :
    ∃ p ∈ (preprocessArchive tp archive).filter videoFilter, p.1 = fn ∧
      ((∃ e, v = mergeRecords (stripTemp p.2) [("analysis_error", Val.str e)]) ∨
       (∃ j fns blob k a, cv j fns = Except.ok (some blob) ∧ (k, a) ∈ blob ∧
          v = mergeRecords (stripTemp p.2) a)) := by
  unfold videoResultsOf at hmem
  split_ifs at hmem with h
  · exact mem_batch_analyze_videos (by norm_num) hmem
  · cases hmem

theorem imageResultsOf_hasKey {tp : String → String} {ci : ℕ → ModelCall}
    {archive : List ArchiveFile} {p : String × Record}
    (hp : p ∈ (preprocessArchive tp archive).filter imageFilter) :
    hasKey (imageResultsOf tp ci archive) p.1 = true := by
  rw [hasKey_eq_any_keys, imageResultsOf_keys,
    if_pos (List.length_pos.mpr (List.ne_nil_of_mem hp))]
  rw [List.any_eq_true]
  exact ⟨p.1, List.mem_map_of_mem Prod.fst hp, by simp⟩

theorem videoResultsOf_hasKey {tp : String → String} {cv : ℕ → ModelCall}
    {archive : List ArchiveFile} {p : String × Record}
    (hpg : p ∈ (preprocessArchive tp archive).filter videoGateFilter)
    (hp : p ∈ (preprocessArchive tp archive).filter videoFilter) :
    hasKey (videoResultsOf tp cv archive) p.1 = true := by
  rw [hasKey_eq_any_keys, videoResultsOf_keys,
    if_pos (List.length_pos.mpr (List.ne_nil_of_mem hpg))]
  rw [List.any_eq_true]
  exact ⟨p.1, List.mem_map_of_mem Prod.fst hp, by simp⟩

/-- The per-file error-marker/analysis dichotomy of a merged batch
record. -/
theorem merged_xor (clean a : Record)
    (hce : hasKey clean "error" = false)
    (hca : hasKey clean "analysis_error" = false)
    (hct : hasKey clean "targeting_type" = false)
    (h : (∃ e, a = [("analysis_error", Val.str e)]) ∨
      (hasKey a "error" = false ∧ hasKey a "analysis_error" = false ∧
        hasKey a "targeting_type" = true)) :
    (hasKey (mergeRecords clean a) "error" ||
      hasKey (mergeRecords clean a) "analysis_error") =
      !(hasKey (mergeRecords clean a) "targeting_type") := by
  rcases h with ⟨e, rfl⟩ | ⟨h1, h2, h3⟩
  · rw [hasKey_mergeRecords, hasKey_mergeRecords, hasKey_mergeRecords,
      hce, hca, hct]
    rfl
  · rw [hasKey_mergeRecords, hasKey_mergeRecords, hasKey_mergeRecords,
      hce, hca, hct, h1, h2, h3]
    rfl

/-- C2 counterexample: an archive whose only entry is `doc.txt` (an
unsupported extension) yields an empty final mapping — the filename does
not appear at all, refuting "every input filename appears exactly
once". -/
theorem archive_coverage_counterexample :
    (([⟨"doc.txt", Except.ok []⟩] : List ArchiveFile).map ArchiveFile.name
      = ["doc.txt"]) ∧
    process_zip_pipeline (fun _ => "t") (fun _ _ => Except.error "e")
      (fun _ _ => Except.error "e") [⟨"doc.txt", Except.ok []⟩] = [] :=
  ⟨rfl, rfl⟩

/-- C2 amended: for every archive with distinct filenames, every
*supported* filename — not hidden, not a persisted `-analysis.json`
artifact, ending (case-insensitively) in `.png` or `.mp4` — appears
exactly once in the final mapping of `process_zip_file`'s pipeline,
either with structured model analysis or with an error marker
(`error` from preprocessing or `analysis_error` from batching), never
both and never neither; other filenames are skipped by the walk.
Well-formedness assumptions: successful preprocessing records carry no
error markers and no model fields, and every analysis object the model
returns carries `targeting_type` (the field the code itself uses to
count analyzed files) and no error markers. -/
theorem final_mapping_coverage
    (tp : String → String) (cv ci : ℕ → ModelCall)
    (archive : List ArchiveFile)
    (hnd : (archive.map ArchiveFile.name).Nodup)
    (hpre : ∀ f ∈ archive, ∀ r, f.pre = Except.ok r →
        hasKey r "error" = false ∧ hasKey r "analysis_error" = false ∧
        hasKey r "targeting_type" = false)
    (hgoodI : ∀ j fns blob, ci j fns = Except.ok (some blob) → ∀ kv ∈ blob,
        hasKey kv.2 "error" = false ∧ hasKey kv.2 "analysis_error" = false ∧
        hasKey kv.2 "targeting_type" = true)
    (hgoodV : ∀ j fns blob, cv j fns = Except.ok (some blob) → ∀ kv ∈ blob,
        hasKey kv.2 "error" = false ∧ hasKey kv.2 "analysis_error" = false ∧
        hasKey kv.2 "targeting_type" = true) :
    ∀ f ∈ archive, skipName f.name = false →
      (isImageKey f.name || isVideoKey f.name) = true →
      ∃ r, getVal? (process_zip_pipeline tp cv ci archive) f.name = some r ∧
        ((hasKey r "error" || hasKey r "analysis_error") =
          !(hasKey r "targeting_type")) ∧
        ((process_zip_pipeline tp cv ci archive).map Prod.fst).count f.name
          = 1 := by
  intro f hf hsk hsup
  have hnd0 : ((preprocessArchive tp archive).map Prod.fst).Nodup :=
    preprocess_keys_nodup tp archive hnd
  have hm0 : getVal? (preprocessArchive tp archive) f.name =
      some (preRecordOf tp f) :=
    getVal?_preprocess tp archive hnd f hf hsk hsup
  have hsubfilter : ∀ (F : String × Record → Bool) (p : String × Record),
      p ∈ (preprocessArchive tp archive).filter F →
      hasKey (preprocessArchive tp archive) p.1 = true := by
    intro F p hp
    rw [hasKey_true_iff]
    exact ⟨p, List.mem_of_mem_filter hp, rfl⟩
  have hallV : ∀ p ∈ videoResultsOf tp cv archive,
      hasKey (preprocessArchive tp archive) p.1 = true := by
    rintro ⟨fn, v⟩ hp
    obtain ⟨q, hq, hq1, _⟩ := mem_videoResultsOf hp
    have := hsubfilter videoFilter q hq
    rw [hq1] at this
    exact this
  have hkeysR1 : ((videoResultsOf tp cv archive).foldl
      (fun acc p => insertRecord acc p.1 p.2)
      (preprocessArchive tp archive)).map Prod.fst =
      (preprocessArchive tp archive).map Prod.fst :=
    map_fst_foldl_insert _ _ hallV
  have hallI : ∀ p ∈ imageResultsOf tp ci archive,
      hasKey ((videoResultsOf tp cv archive).foldl
        (fun acc p => insertRecord acc p.1 p.2)
        (preprocessArchive tp archive)) p.1 = true := by
    rintro ⟨fn, v⟩ hp
    obtain ⟨q, hq, hq1, _⟩ := mem_imageResultsOf hp
    rw [hasKey_keys_congr hkeysR1]
    have := hsubfilter imageFilter q hq
    rw [hq1] at this
    exact this
  have hkeysfinal : (process_zip_pipeline tp cv ci archive).map Prod.fst =
      (preprocessArchive tp archive).map Prod.fst := by
    unfold process_zip_pipeline
    rw [map_fst_foldl_insert _ _ hallI, hkeysR1]
  have hcount : ((process_zip_pipeline tp cv ci archive).map
      Prod.fst).count f.name = 1 := by
    rw [hkeysfinal]
    exact List.count_eq_one_of_mem hnd0
      (List.mem_map_of_mem Prod.fst (mem_of_getVal?_eq_some hm0))
  have hndI : ((imageResultsOf tp ci archive).map Prod.fst).Nodup := by
    rw [imageResultsOf_keys]
    split_ifs
    · exact List.Nodup.sublist
        (List.Sublist.map _ (List.filter_sublist _)) hnd0
    · exact List.nodup_nil
  have hndV : ((videoResultsOf tp cv archive).map Prod.fst).Nodup := by
    rw [videoResultsOf_keys]
    split_ifs
    · exact List.Nodup.sublist
        (List.Sublist.map _ (List.filter_sublist _)) hnd0
    · exact List.nodup_nil
  have hfinal : getVal? (process_zip_pipeline tp cv ci archive) f.name =
      ((getVal? (imageResultsOf tp ci archive) f.name).or
        ((getVal? (videoResultsOf tp cv archive) f.name).or
          (getVal? (preprocessArchive tp archive) f.name))) := by
    unfold process_zip_pipeline
    rw [getVal?_foldl_insert _ _ _ hndI, getVal?_foldl_insert _ _ _ hndV]
  have huniq : ∀ p ∈ preprocessArchive tp archive, p.1 = f.name →
      p.2 = preRecordOf tp f := by
    rintro ⟨a, b⟩ hp hp1
    have hp1' : a = f.name := hp1
    have h1 : getVal? (preprocessArchive tp archive) a = some b :=
      getVal?_eq_some_of_mem hnd0 hp
    rw [hp1', hm0] at h1
    exact (Option.some.inj h1).symm
  have hnotinF : ∀ F : String × Record → Bool,
      F (f.name, preRecordOf tp f) = false →
      ((((preprocessArchive tp archive).filter F).map Prod.fst).any
        (fun s => s == f.name)) = false := by
    intro F hF
    rw [List.any_eq_false]
    intro s hs
    obtain ⟨q, hq, rfl⟩ := List.mem_map.mp hs
    intro hbe
    have hq1 : q.1 = f.name := by simpa using hbe
    have hq2 := huniq q (List.mem_of_mem_filter hq) hq1
    have hqeq : q = (f.name, preRecordOf tp f) := by
      rcases q with ⟨a, b⟩
      simp only at hq1 hq2
      rw [hq1, hq2]
    have hFq := List.of_mem_filter hq
    rw [hqeq, hF] at hFq
    cases hFq
  have hnoneI : imageFilter (f.name, preRecordOf tp f) = false →
      getVal? (imageResultsOf tp ci archive) f.name = none := by
    intro hF
    apply getVal?_eq_none_of_not_key
    rw [hasKey_eq_any_keys, imageResultsOf_keys]
    split_ifs
    · exact hnotinF imageFilter hF
    · rfl
  have hnoneV : videoFilter (f.name, preRecordOf tp f) = false →
      getVal? (videoResultsOf tp cv archive) f.name = none := by
    intro hF
    apply getVal?_eq_none_of_not_key
    rw [hasKey_eq_any_keys, videoResultsOf_keys]
    split_ifs
    · exact hnotinF videoFilter hF
    · rfl
  rcases hpe : f.pre with e | r
  · -- preprocessing raised: the error record passes through untouched
    have hrec : preRecordOf tp f =
        [("error", Val.str e), ("status", Val.str "failed")] := by
      unfold preRecordOf
      rw [hpe]
    have hFi : imageFilter (f.name, preRecordOf tp f) = false := by
      unfold imageFilter
      rw [hrec]
      simp [hasKey]
    have hFv : videoFilter (f.name, preRecordOf tp f) = false := by
      unfold videoFilter
      rw [hrec]
      simp [hasKey]
    refine ⟨preRecordOf tp f, ?_, ?_, hcount⟩
    · rw [hfinal, hnoneI hFi, hnoneV hFv, hm0]
      rfl
    · rw [hrec]
      rfl
  · -- preprocessing succeeded
    obtain ⟨hre, hra, hrt⟩ := hpre f hf r hpe
    have hrec : preRecordOf tp f =
        mergeRecords r [("_temp_file_path", Val.str (tp f.name))] := by
      unfold preRecordOf
      rw [hpe]
    have hr0e : hasKey (preRecordOf tp f) "error" = false := by
      rw [hrec, hasKey_mergeRecords, hre]
      rfl
    have hr0a : hasKey (preRecordOf tp f) "analysis_error" = false := by
      rw [hrec, hasKey_mergeRecords, hra]
      rfl
    have hr0t : hasKey (preRecordOf tp f) "targeting_type" = false := by
      rw [hrec, hasKey_mergeRecords, hrt]
      rfl
    have hr0temp : hasKey (preRecordOf tp f) "_temp_file_path" = true := by
      rw [hrec, hasKey_mergeRecords]
      simp [hasKey]
    have hmem0 : (f.name, preRecordOf tp f) ∈ preprocessArchive tp archive :=
      mem_of_getVal?_eq_some hm0
    rcases hki : isImageKey f.name with _ | _
    · -- a video file
      have hkv : isVideoKey f.name = true := by
        rw [hki] at hsup
        simpa using hsup
      have hFi : imageFilter (f.name, preRecordOf tp f) = false := by
        unfold imageFilter
        rw [hki]
        rfl
      have hFv : videoFilter (f.name, preRecordOf tp f) = true := by
        unfold videoFilter
        rw [hkv, hr0e, hr0temp]
        rfl
      have hFg : videoGateFilter (f.name, preRecordOf tp f) = true := by
        unfold videoGateFilter
        rw [hkv, hr0e]
        rfl
      have hpmemV : (f.name, preRecordOf tp f) ∈
          (preprocessArchive tp archive).filter videoFilter :=
        List.mem_filter.mpr ⟨hmem0, hFv⟩
      have hpmemG : (f.name, preRecordOf tp f) ∈
          (preprocessArchive tp archive).filter videoGateFilter :=
        List.mem_filter.mpr ⟨hmem0, hFg⟩
      have hhk := @videoResultsOf_hasKey tp cv archive _ hpmemG hpmemV
      rw [hasKey_eq_isSome] at hhk
      obtain ⟨v, hv⟩ := Option.isSome_iff_exists.mp hhk
      refine ⟨v, ?_, ?_, hcount⟩
      · rw [hfinal, hnoneI hFi, hv]
        rfl
      · obtain ⟨p2, hp2, hp21, hshape⟩ :=
          mem_videoResultsOf (mem_of_getVal?_eq_some hv)
        have hp22 := huniq p2 (List.mem_of_mem_filter hp2) hp21
        have hse : hasKey (stripTemp (preRecordOf tp f)) "error" = false := by
          rw [hasKey_stripTemp _ _ (by decide), hr0e]
        have hsa : hasKey (stripTemp (preRecordOf tp f)) "analysis_error"
            = false := by
          rw [hasKey_stripTemp _ _ (by decide), hr0a]
        have hst : hasKey (stripTemp (preRecordOf tp f)) "targeting_type"
            = false := by
          rw [hasKey_stripTemp _ _ (by decide), hr0t]
        rcases hshape with ⟨e2, hve⟩ | ⟨j, fns, blob, k2, a, hcall, hab, hva⟩
        · rw [hve, hp22]
          exact merged_xor _ _ hse hsa hst (Or.inl ⟨e2, rfl⟩)
        · rw [hva, hp22]
          exact merged_xor _ _ hse hsa hst
            (Or.inr (hgoodV j fns blob hcall (k2, a) hab))
    · -- an image file
      have hFi : imageFilter (f.name, preRecordOf tp f) = true := by
        unfold imageFilter
        rw [hki, hr0e]
        rfl
      have hpmemI : (f.name, preRecordOf tp f) ∈
          (preprocessArchive tp archive).filter imageFilter :=
        List.mem_filter.mpr ⟨hmem0, hFi⟩
      have hhk := @imageResultsOf_hasKey tp ci archive _ hpmemI
      rw [hasKey_eq_isSome] at hhk
      obtain ⟨v, hv⟩ := Option.isSome_iff_exists.mp hhk
      refine ⟨v, ?_, ?_, hcount⟩
      · rw [hfinal, hv]
        rfl
      · obtain ⟨p2, hp2, hp21, hshape⟩ :=
          mem_imageResultsOf (mem_of_getVal?_eq_some hv)
        have hp22 := huniq p2 (List.mem_of_mem_filter hp2) hp21
        rcases hshape with ⟨e2, hve⟩ | ⟨j, fns, blob, k2, a, hcall, hab, hva⟩
        · rw [hve, hp22]
          exact merged_xor _ _ hr0e hr0a hr0t (Or.inl ⟨e2, rfl⟩)
        · rw [hva, hp22]
          exact merged_xor _ _ hr0e hr0a hr0t
            (Or.inr (hgoodI j fns blob hcall (k2, a) hab))

/-- Witness for C2's amended theorem: a one-image archive whose batch
call raises still covers `a.png` exactly once. -/
theorem final_mapping_coverage_witness :
    ∃ r, getVal? (process_zip_pipeline (fun _ => "t")
        (fun _ _ => Except.error "x") (fun _ _ => Except.error "x")
        [⟨"a.png", Except.ok []⟩]) "a.png" = some r ∧
      ((hasKey r "error" || hasKey r "analysis_error") =
        !(hasKey r "targeting_type")) ∧
      ((process_zip_pipeline (fun _ => "t") (fun _ _ => Except.error "x")
        (fun _ _ => Except.error "x")
        [⟨"a.png", Except.ok []⟩]).map Prod.fst).count "a.png" = 1 :=
  final_mapping_coverage (fun _ => "t") (fun _ _ => Except.error "x")
    (fun _ _ => Except.error "x") [⟨"a.png", Except.ok []⟩]
    (by decide)
    (by
      intro f hf r hr
      rw [List.mem_singleton.mp hf] at hr
      cases hr
      exact ⟨rfl, rfl, rfl⟩)
    (fun j fns blob h => Except.noConfusion h)
    (fun j fns blob h => Except.noConfusion h)
    ⟨"a.png", Except.ok []⟩ (List.mem_singleton.mpr rfl) (by decide)
    (by decide)

/-- C10: every record merged by `batch_analyze_videos` has the
`_temp_file_path` key stripped, but every record merged by
`batch_analyze_images` keeps its preprocessing record's
`_temp_file_path` entry unchanged; consequently, in the full pipeline a
successfully analyzed image's final (and then persisted) record maps
`_temp_file_path` to the compressed file path. -/
theorem temp_path_retention
    (cmv cmi : ℕ → ModelCall) (m : List (String × Record)) (b : ℕ)
    (hb : 1 ≤ b)
    (hblobV : ∀ j fns blob, cmv j fns = Except.ok (some blob) →
        ∀ kv ∈ blob, hasKey kv.2 "_temp_file_path" = false)
    (hblobI : ∀ j fns blob, cmi j fns = Except.ok (some blob) →
        ∀ kv ∈ blob, hasKey kv.2 "_temp_file_path" = false)
    (tp : String → String) (cv2 ci2 : ℕ → ModelCall)
    (archive : List ArchiveFile)
    (hnd : (archive.map ArchiveFile.name).Nodup)
    (hblobI2 : ∀ j fns blob, ci2 j fns = Except.ok (some blob) →
        ∀ kv ∈ blob, hasKey kv.2 "_temp_file_path" = false) :
    (∀ fn v, (fn, v) ∈ batch_analyze_videos cmv m b →
        hasKey v "_temp_file_path" = false) ∧
    (∀ fn v, (fn, v) ∈ batch_analyze_images cmi m b →
        ∃ p ∈ m.filter imageFilter, p.1 = fn ∧
          getVal? v "_temp_file_path" = getVal? p.2 "_temp_file_path") ∧
    (∀ f ∈ archive, skipName f.name = false → isImageKey f.name = true →
        ∀ r0, f.pre = Except.ok r0 → hasKey r0 "error" = false →
        ∀ v, getVal? (process_zip_pipeline tp cv2 ci2 archive) f.name
            = some v →
          getVal? v "_temp_file_path" = some (Val.str (tp f.name))) := by
  refine ⟨?_, ?_, ?_⟩
  · intro fn v hmem
    obtain ⟨p, _, _, hshape⟩ := mem_batch_analyze_videos hb hmem
    rcases hshape with ⟨e, hve⟩ | ⟨j, fns, blob, k2, a, hcall, hab, hva⟩
    · rw [hve, hasKey_mergeRecords, hasKey_stripTemp_temp]
      rfl
    · rw [hva, hasKey_mergeRecords, hasKey_stripTemp_temp,
        hblobV j fns blob hcall (k2, a) hab]
      rfl
  · intro fn v hmem
    obtain ⟨p, hp, hp1, hshape⟩ := mem_batch_analyze_images hb hmem
    refine ⟨p, hp, hp1, ?_⟩
    rcases hshape with ⟨e, hve⟩ | ⟨j, fns, blob, k2, a, hcall, hab, hva⟩
    · rw [hve, getVal?_mergeRecords]
      rfl
    · rw [hva, getVal?_mergeRecords,
        hblobI j fns blob hcall (k2, a) hab]
      rfl
  · intro f hf hsk hki r0 hpe hr0e v hv
    have hsup : (isImageKey f.name || isVideoKey f.name) = true := by
      rw [hki]
      rfl
    have hnd0 : ((preprocessArchive tp archive).map Prod.fst).Nodup :=
      preprocess_keys_nodup tp archive hnd
    have hm0 : getVal? (preprocessArchive tp archive) f.name =
        some (preRecordOf tp f) :=
      getVal?_preprocess tp archive hnd f hf hsk hsup
    have hrec : preRecordOf tp f =
        mergeRecords r0 [("_temp_file_path", Val.str (tp f.name))] := by
      unfold preRecordOf
      rw [hpe]
    have herr : hasKey (preRecordOf tp f) "error" = false := by
      rw [hrec, hasKey_mergeRecords, hr0e]
      rfl
    have hndI : ((imageResultsOf tp ci2 archive).map Prod.fst).Nodup := by
      rw [imageResultsOf_keys]
      split_ifs
      · exact List.Nodup.sublist
          (List.Sublist.map _ (List.filter_sublist _)) hnd0
      · exact List.nodup_nil
    have hndV : ((videoResultsOf tp cv2 archive).map Prod.fst).Nodup := by
      rw [videoResultsOf_keys]
      split_ifs
      · exact List.Nodup.sublist
          (List.Sublist.map _ (List.filter_sublist _)) hnd0
      · exact List.nodup_nil
    have hfinal : getVal? (process_zip_pipeline tp cv2 ci2 archive) f.name =
        ((getVal? (imageResultsOf tp ci2 archive) f.name).or
          ((getVal? (videoResultsOf tp cv2 archive) f.name).or
            (getVal? (preprocessArchive tp archive) f.name))) := by
      unfold process_zip_pipeline
      rw [getVal?_foldl_insert _ _ _ hndI, getVal?_foldl_insert _ _ _ hndV]
    have huniq : ∀ p ∈ preprocessArchive tp archive, p.1 = f.name →
        p.2 = preRecordOf tp f := by
      rintro ⟨a, b⟩ hp hp1
      have hp1' : a = f.name := hp1
      have h1 : getVal? (preprocessArchive tp archive) a = some b :=
        getVal?_eq_some_of_mem hnd0 hp
      rw [hp1', hm0] at h1
      exact (Option.some.inj h1).symm
    have hFi : imageFilter (f.name, preRecordOf tp f) = true := by
      unfold imageFilter
      rw [hki, herr]
      rfl
    have hpmemI : (f.name, preRecordOf tp f) ∈
        (preprocessArchive tp archive).filter imageFilter :=
      List.mem_filter.mpr ⟨mem_of_getVal?_eq_some hm0, hFi⟩
    have hhk := @imageResultsOf_hasKey tp ci2 archive _ hpmemI
    rw [hasKey_eq_isSome] at hhk
    obtain ⟨v2, hv2⟩ := Option.isSome_iff_exists.mp hhk
    have hveq : v = v2 := by
      rw [hfinal, hv2] at hv
      exact (Option.some.inj hv).symm
    have htempval : getVal? (preRecordOf tp f) "_temp_file_path" =
        some (Val.str (tp f.name)) := by
      rw [hrec, getVal?_mergeRecords]
      rfl
    obtain ⟨p2, hp2, hp21, hshape⟩ :=
      mem_imageResultsOf (mem_of_getVal?_eq_some hv2)
    have hp22 := huniq p2 (List.mem_of_mem_filter hp2) hp21
    rcases hshape with ⟨e2, hve⟩ | ⟨j, fns, blob, k2, a, hcall, hab, hva⟩
    · rw [hveq, hve, hp22, getVal?_mergeRecords]
      rw [show hasKey ([("analysis_error", Val.str e2)] : Record)
        "_temp_file_path" = false from rfl]
      simp only [Bool.false_eq_true, if_false]
      exact htempval
    · rw [hveq, hva, hp22, getVal?_mergeRecords,
        hblobI2 j fns blob hcall (k2, a) hab]
      simp only [Bool.false_eq_true, if_false]
      exact htempval

/-- Witness for C10's theorem: a one-video run whose model call raises
produces a record without `_temp_file_path`. -/
theorem temp_path_retention_witness :
    hasKey (mergeRecords (stripTemp [("_temp_file_path", Val.str "t")])
      [("analysis_error", Val.str "x")]) "_temp_file_path" = false :=
  (temp_path_retention (fun _ _ => Except.error "x")
    (fun _ _ => Except.error "x")
    [(("a.mp4" : String), [("_temp_file_path", Val.str "t")])] 1 (by decide)
    (fun j fns blob h => Except.noConfusion h)
    (fun j fns blob h => Except.noConfusion h)
    (fun _ => "t") (fun _ _ => Except.error "x") (fun _ _ => Except.error "x")
    [] (by decide)
    (fun j fns blob h => Except.noConfusion h)).1
    "a.mp4"
    (mergeRecords (stripTemp [("_temp_file_path", Val.str "t")])
      [("analysis_error", Val.str "x")])
    (by decide)

end AdMcQuery
